import Mathlib

/-!
Shallow embedding of the NBL-chain classification routines of
`src/include/ndis/ndl/nblchain.h` (nblchain.h / nblclassify.h sections) from
microsoft/ndis-driver-library.

An NBL chain is embedded as a `List α` of packets in chain order (the null
terminator is the end of the list); the non-empty input chain of each
classification routine is passed as head `h` plus tail `rest`.  `ULONG_PTR`
classification values and `SIZE_T` indices are embedded as `Nat`.  The
intrusive pointer loops of the C code become structural recursion on the
remaining chain, with the pending run `First..Previous` carried explicitly
as a list.

The queue primitives live in `nblqueue.h`, which is not part of the sources
here; they are modelled from the spec (spec section 4.1), as documented on
each of those definitions.
-/

variable {α : Type}

/-- Modelled from the spec: `NBL_QUEUE` (nblqueue.h is not in the sources).
A packet queue is a chain plus a tail reference; since the tail is determined
by the chain, the queue is identified with the list of packets reachable from
its head.  `NdisInitializeNblQueue` sets head = tail = null: the empty queue. -/
def NdisInitializeNblQueue : List α := []

/-- Modelled from the spec: `NdisAppendNblChainToNblQueueFast` (nblqueue.h is
not in the sources).  The caller supplies a detached sub-chain by its first
and last packet; here the sub-chain `First..Last` is the list `seg`.  The
queue is rewired in O(1) so that its chain becomes the old chain followed by
the sub-chain. -/
def NdisAppendNblChainToNblQueueFast (q seg : List α) : List α := q ++ seg

/-- Modelled from the spec: `NBL_COUNTED_QUEUE` (nblqueue.h is not in the
sources): a packet queue plus an integer count.  Invariant (spec section 3):
`NblCount` equals the number of packets reachable from the head. -/
structure NBL_COUNTED_QUEUE (α : Type) where
  Queue : List α
  NblCount : Nat
deriving DecidableEq

/-- Modelled from the spec: `NdisInitializeNblCountedQueue` (nblqueue.h is
not in the sources): the empty counted queue, with count 0. -/
def NdisInitializeNblCountedQueue : NBL_COUNTED_QUEUE α := ⟨[], 0⟩

/-- Modelled from the spec: `NdisAppendNblChainToNblCountedQueueFast`
(nblqueue.h is not in the sources).  The counted variant of the O(1) chain
append additionally takes the number of packets in the appended sub-chain
and adds it to the queue's count. -/
def NdisAppendNblChainToNblCountedQueueFast
    (q : NBL_COUNTED_QUEUE α) (seg : List α) (count : Nat) : NBL_COUNTED_QUEUE α :=
  ⟨q.Queue ++ seg, q.NblCount + count⟩

/-- Modelled from the spec: the validity predicate behind
`NDIS_ASSERT_VALID_NBL_COUNTED_QUEUE` (nblqueue.h is not in the sources).
Per the spec's Counted Packet Queue invariant, the count must equal the
number of packets reachable by walking the chain from the head. -/
def NblCountedQueueValid (q : NBL_COUNTED_QUEUE α) : Prop :=
  q.NblCount = q.Queue.length

instance (q : NBL_COUNTED_QUEUE α) : Decidable (NblCountedQueueValid q) :=
  inferInstanceAs (Decidable (_ = _))

/-- Loop of `NdisClassifyNblChain2` (nblchain.h lines 982-1027).  `cur` is
`CurrentIndex`, `run` is the pending sub-chain `First..Previous`, `q0`/`q1`
are the two output queues, and the argument list is the chain from `Nbl` on. -/
def classify2Go (cb : α → Nat) (cur : Nat) (run : List α) (q0 q1 : List α) :
    List α → List α × List α
  | [] =>
    if cur = 0 then (NdisAppendNblChainToNblQueueFast q0 run, q1)
    else (q0, NdisAppendNblChainToNblQueueFast q1 run)
  | nbl :: rest =>
    let thisIdx := cb nbl
    if thisIdx ≠ cur then
      let qs :=
        if cur = 0 then (NdisAppendNblChainToNblQueueFast q0 run, q1)
        else (q0, NdisAppendNblChainToNblQueueFast q1 run)
      classify2Go cb thisIdx [nbl] qs.1 qs.2 rest
    else
      classify2Go cb cur (run ++ [nbl]) q0 q1 rest

/-- `NdisClassifyNblChain2` (nblchain.h lines 953-1027): separates the
non-empty chain `h :: rest` into the two queues, by the index callback. -/
def NdisClassifyNblChain2 (cb : α → Nat) (h : α) (rest : List α)
    (q0 q1 : List α) : List α × List α :=
  classify2Go cb (cb h) [h] q0 q1 rest

/-- `NdisAppendNblChainToNblQueueFast(&Queues[i], First, Previous)` on an
array of queues: queue `i` receives the sub-chain.  (`List.set` leaves the
array unchanged when `i` is out of range; the C code's behaviour there is
undefined, guarded by a debug assertion.) -/
def appendAt (qs : List (List α)) (i : Nat) (seg : List α) : List (List α) :=
  qs.set i (NdisAppendNblChainToNblQueueFast (qs.getD i []) seg)

/-- Loop of `NdisClassifyNblChainByIndex` (nblchain.h lines 1128-1176). -/
def classifyByIndexGo (cb : α → Nat) (cur : Nat) (run : List α)
    (qs : List (List α)) : List α → List (List α)
  | [] => appendAt qs cur run
  | nbl :: rest =>
    let thisIdx := cb nbl
    if thisIdx ≠ cur then
      classifyByIndexGo cb thisIdx [nbl] (appendAt qs cur run) rest
    else
      classifyByIndexGo cb cur (run ++ [nbl]) qs rest

/-- `NdisClassifyNblChainByIndex` (nblchain.h lines 1099-1176): separates the
non-empty chain `h :: rest` into the array of queues `qs` (so
`NumberOfQueues = qs.length`), by the index callback. -/
def NdisClassifyNblChainByIndex (cb : α → Nat) (h : α) (rest : List α)
    (qs : List (List α)) : List (List α) :=
  classifyByIndexGo cb (cb h) [h] qs rest

/-- Counted-queue-array version of `appendAt`, mirroring
`NdisAppendNblChainToNblCountedQueueFast(&Queues[i], First, Previous, Count)`. -/
def cAppendAt (qs : List (NBL_COUNTED_QUEUE α)) (i : Nat) (seg : List α)
    (count : Nat) : List (NBL_COUNTED_QUEUE α) :=
  qs.set i (NdisAppendNblChainToNblCountedQueueFast (qs.getD i ⟨[], 0⟩) seg count)

/-- Loop of `NdisClassifyNblChainByIndexWithCount` (nblchain.h lines
1196-1251).  `cur` is `CurrentIndex` and `thisIdx` is `ThisIndex`: the C
code keeps both variables and — unlike the uncounted variant — performs its
final append into `Queues[ThisIndex]`, so both are carried here. -/
def classifyByIndexWithCountGo (cb : α → Nat) (cur thisIdx : Nat)
    (run : List α) (count : Nat) (qs : List (NBL_COUNTED_QUEUE α)) :
    List α → List (NBL_COUNTED_QUEUE α)
  | [] => cAppendAt qs thisIdx run count
  | nbl :: rest =>
    let t := cb nbl
    if t ≠ cur then
      classifyByIndexWithCountGo cb t t [nbl] 1 (cAppendAt qs cur run count) rest
    else
      classifyByIndexWithCountGo cb cur t (run ++ [nbl]) (count + 1) qs rest

/-- `NdisClassifyNblChainByIndexWithCount` (nblchain.h lines 1178-1251). -/
def NdisClassifyNblChainByIndexWithCount (cb : α → Nat) (h : α)
    (rest : List α) (qs : List (NBL_COUNTED_QUEUE α)) :
    List (NBL_COUNTED_QUEUE α) :=
  classifyByIndexWithCountGo cb (cb h) (cb h) [h] 1 qs rest

/-- Loop of `NdisClassifyNblChainByValue` (nblchain.h lines 1287-1326).
`target` is `TargetClassification`, `run` the pending `FirstNbl..PreviousNbl`.
Each `FlushCallback(FlushContext, TargetClassification, &Queue)` invocation is
recorded, in order, as a `(classification, queue chain)` pair on `acc`; the
queue handed to the callback holds exactly the completed run. -/
def classifyByValueGo (cb : α → Nat) (target : Nat) (run : List α)
    (acc : List (Nat × List α)) : List α → List (Nat × List α)
  | [] => acc ++ [(target, NdisAppendNblChainToNblQueueFast NdisInitializeNblQueue run)]
  | nbl :: rest =>
    let next := cb nbl
    if next ≠ target then
      classifyByValueGo cb next [nbl]
        (acc ++ [(target, NdisAppendNblChainToNblQueueFast NdisInitializeNblQueue run)]) rest
    else
      classifyByValueGo cb target (run ++ [nbl]) acc rest

/-- `NdisClassifyNblChainByValue` (nblchain.h lines 1253-1326): the eager
value classifier on the non-empty chain `h :: rest`; the result is the
sequence of flush-callback invocations. -/
def NdisClassifyNblChainByValue (cb : α → Nat) (h : α) (rest : List α) :
    List (Nat × List α) :=
  classifyByValueGo cb (cb h) [h] [] rest

/-- The eager value classifier extended to a possibly-empty chain (the C
routine requires a non-empty chain; an empty chain produces no flushes).
Used to state loop equations and the pull-style equivalence. -/
def byValueTrace (cb : α → Nat) : List α → List (Nat × List α)
  | [] => []
  | h :: rest => NdisClassifyNblChainByValue cb h rest

/-- One slot of the lookahead classifier's state: an entry of the parallel
arrays `Valid[i]`, `TargetClassification[i]`, `Queue[i]` of
`NdisClassifyNblChainByValueLookahead` (nblchain.h lines 1432-1434). -/
structure NblSlot (α : Type) where
  Valid : Bool
  Target : Nat
  Queue : List α
deriving DecidableEq

/-- A never-used slot: `Valid[i] = FALSE`.  (The C code never reads the
`Target`/`Queue` of an invalid slot, so their values here are immaterial;
defaults are used.) -/
def invalidSlot : NblSlot α := ⟨false, 0, []⟩

/-- The slot-scan loop of `NdisClassifyNblChainByValueLookahead` (nblchain.h
lines 1464-1482): visit slots in index order; at each slot first test
`Valid[i] == FALSE` (claim the empty slot), then `TargetClassification[i] ==
NextClassification` (resume the matching slot).  Returns the slot index and
`true` for an empty slot, `false` for a matching slot; `none` means the loop
fell through (every slot is valid with a different key). -/
def scanSlots (key : Nat) : List (NblSlot α) → Option (Nat × Bool)
  | [] => none
  | s :: rest =>
    if s.Valid = false then some (0, true)
    else if s.Target = key then some (0, false)
    else
      match scanSlots key rest with
      | some (i, b) => some (i + 1, b)
      | none => none

/-- `NdisAppendNblChainToNblQueueFast(&Queue[i], FirstNbl, PreviousNbl)` on
the slot array: slot `i`'s queue receives the pending run. -/
def appendToSlot (slots : List (NblSlot α)) (i : Nat) (seg : List α) :
    List (NblSlot α) :=
  slots.set i
    { slots.getD i invalidSlot with
      Queue := NdisAppendNblChainToNblQueueFast (slots.getD i invalidSlot).Queue seg }

/-- Outcome of the run-boundary handling of
`NdisClassifyNblChainByValueLookahead` (nblchain.h lines 1464-1491), after
the pending run has been appended to its slot (`slots1`): the slot-scan loop
either claims an empty slot `i` (sets `Valid[i]`, `TargetClassification[i]`
and re-initializes `Queue[i]`), or resumes a matching slot `i`, or falls
through, in which case the slot at `(PreviousIndex + 1) % K` is evicted: its
run is flushed (appended to the flush record `acc`), its target is
overwritten with the new classification, and its queue re-initialized.  The
returned triple is the new slot array, the new `PreviousIndex` (the chosen
slot, which the new run starting at the current NBL belongs to), and the
flush record. -/
def lookaheadDispatch (next : Nat) (slots1 : List (NblSlot α)) (prevIdx : Nat)
    (acc : List (Nat × List α)) : List (NblSlot α) × Nat × List (Nat × List α) :=
  match scanSlots next slots1 with
  | some (i, true) => (slots1.set i ⟨true, next, NdisInitializeNblQueue⟩, i, acc)
  | some (i, false) => (slots1, i, acc)
  | none =>
    let e := (prevIdx + 1) % slots1.length
    let es := slots1.getD e invalidSlot
    (slots1.set e ⟨es.Valid, next, NdisInitializeNblQueue⟩, e,
     acc ++ [(es.Target, es.Queue)])

/-- Main loop of `NdisClassifyNblChainByValueLookahead` (nblchain.h lines
1445-1497).  State: the slot array, `PreviousIndex`, the pending run
`FirstNbl..PreviousNbl`, and the flushes already issued by eviction (in
order).  On a run boundary the pending run is appended to slot
`PreviousIndex` and `lookaheadDispatch` chooses the slot for the new run,
which starts as `[nbl]` (`FirstNbl = Nbl`).  Returns the final slot array,
`PreviousIndex`, and the eviction flushes; the `Nbl == NULL` exit appends
the pending run to slot `PreviousIndex`. -/
def lookaheadGo (cb : α → Nat) (slots : List (NblSlot α)) (prevIdx : Nat)
    (run : List α) (acc : List (Nat × List α)) :
    List α → List (NblSlot α) × Nat × List (Nat × List α)
  | [] => (appendToSlot slots prevIdx run, prevIdx, acc)
  | nbl :: rest =>
    let next := cb nbl
    if (slots.getD prevIdx invalidSlot).Target ≠ next then
      let r := lookaheadDispatch next (appendToSlot slots prevIdx run) prevIdx acc
      lookaheadGo cb r.1 r.2.1 [nbl] r.2.2 rest
    else
      lookaheadGo cb slots prevIdx (run ++ [nbl]) acc rest

/-- The final flush loop of `NdisClassifyNblChainByValueLookahead` (nblchain.h
lines 1499-1508): flush slots in index order, stopping at the first
never-used slot. -/
def flushLoop : List (NblSlot α) → List (Nat × List α)
  | [] => []
  | s :: rest => if s.Valid = false then [] else (s.Target, s.Queue) :: flushLoop rest

/-- The initial slot arrays of the lookahead classifier (nblchain.h lines
1432-1443): `Valid = { TRUE }` marks only slot 0 valid, slot 0's queue is
initialized empty and its target is the head packet's classification. -/
def initSlots (K : Nat) (target0 : Nat) : List (NblSlot α) :=
  (List.replicate K (invalidSlot : NblSlot α)).set 0 ⟨true, target0, NdisInitializeNblQueue⟩

/-- `NdisClassifyNblChainByValueLookahead` (nblchain.h lines 1393-1509) on
the non-empty chain `h :: rest`, with lookahead depth
`K = NDIS_CLASSIFY_NBL_LOOKHEAD_DEPTH` (the header's default is 4; the macro
is overridable, so `K` is a parameter).  The result is the sequence of
flush-callback invocations: the eviction flushes in order, followed by the
end-of-input flush loop. -/
def NdisClassifyNblChainByValueLookahead (K : Nat) (cb : α → Nat) (h : α)
    (rest : List α) : List (Nat × List α) :=
  let r := lookaheadGo cb (initSlots K (cb h)) 0 [h] [] rest
  r.2.2 ++ flushLoop r.1

/-- Loop of `NdisPartialClassifyNblChainByValue` (nblchain.h lines 1665-1686):
walk forward while the classification stays equal to `target`; stop at the
first differing packet (which, with the rest of the chain, becomes the new
`*NblChain`) or at the end of the chain (`*NblChain = NULL`).  Returns the
detached run `FirstNbl..PreviousNbl` and the remainder. -/
def detachRunGo (cb : α → Nat) (target : Nat) (run : List α) :
    List α → List α × List α
  | [] => (run, [])
  | nbl :: rest =>
    if cb nbl ≠ target then (run, nbl :: rest)
    else detachRunGo cb target (run ++ [nbl]) rest

/-- `NdisPartialClassifyNblChainByValue` (nblchain.h lines 1617-1696) on the
non-empty chain `h :: rest`: returns `(HomogenousQueue, ClassificationResult,
remaining *NblChain)`. -/
def NdisPartialClassifyNblChainByValue (cb : α → Nat) (h : α)
    (rest : List α) : List α × Nat × List α :=
  let r := detachRunGo cb (cb h) [h] rest
  (NdisAppendNblChainToNblQueueFast NdisInitializeNblQueue r.1, cb h, r.2)

/-- Loop of `NdisPartialClassifyNblChainByValueWithCount` (nblchain.h lines
1716-1757).  The routine declares `SIZE_T Count = 1` and its loop never
modifies `Count`; the variable is carried here unchanged, exactly as in the
source. -/
def detachRunWithCountGo (cb : α → Nat) (target : Nat) (run : List α)
    (count : Nat) : List α → (List α × Nat) × List α
  | [] => ((run, count), [])
  | nbl :: rest =>
    if cb nbl ≠ target then ((run, count), nbl :: rest)
    else detachRunWithCountGo cb target (run ++ [nbl]) count rest

/-- `NdisPartialClassifyNblChainByValueWithCount` (nblchain.h lines
1698-1757) on the non-empty chain `h :: rest`: returns `(HomogenousQueue,
ClassificationResult, remaining *NblChain)`, where the counted queue is
built by appending the detached run with the loop's final `Count`. -/
def NdisPartialClassifyNblChainByValueWithCount (cb : α → Nat) (h : α)
    (rest : List α) : NBL_COUNTED_QUEUE α × Nat × List α :=
  let r := detachRunWithCountGo cb (cb h) [h] 1 rest
  (NdisAppendNblChainToNblCountedQueueFast NdisInitializeNblCountedQueue r.1.1 r.1.2,
   cb h, r.2)

/-- The caller loop described in the header's documentation for
`NdisPartialClassifyNblChainByValue` (nblchain.h lines 1636-1637 and the
nblclassify.h overview): repeatedly detach the front run until the chain is
null, collecting the `(ClassificationResult, HomogenousQueue)` pairs in
order.  The fuel argument of `detachRunLoop` bounds the number of
iterations; `repeatedDetach` supplies the chain length, which always
suffices because each call removes at least the head packet. -/
def detachRunLoop (cb : α → Nat) : Nat → List α → List (Nat × List α)
  | _, [] => []
  | 0, _ :: _ => []
  | fuel + 1, h :: rest =>
    let r := NdisPartialClassifyNblChainByValue cb h rest
    (r.2.1, r.1) :: detachRunLoop cb fuel r.2.2

/-- Calling the pull-style classifier to exhaustion, as the header's own
usage example does. -/
def repeatedDetach (cb : α → Nat) (l : List α) : List (Nat × List α) :=
  detachRunLoop cb l.length l

/-- Slot selection as worded by the spec (section 4.4 step 3): across the
whole scan, an empty slot is preferred ("if an empty slot exists, start a
new run there"), and only otherwise is a slot already holding the key
resumed.  Stated for comparison with the source's `scanSlots`. -/
def scanSlotsSpecEmptyFirst (key : Nat) (slots : List (NblSlot α)) :
    Option (Nat × Bool) :=
  match slots.findIdx? (fun s => !s.Valid) with
  | some i => some (i, true)
  | none =>
    match slots.findIdx? (fun s => s.Target == key) with
    | some i => some (i, false)
    | none => none

/-- Total mass (multiset of packets) held by a list of flushed batches. -/
def traceMass (tr : List (Nat × List α)) : Multiset α :=
  (tr.map fun b => Multiset.ofList b.2).sum

/-- Total mass (multiset of packets) held in the slot queues. -/
def slotsMass (slots : List (NblSlot α)) : Multiset α :=
  (slots.map fun s => Multiset.ofList s.Queue).sum









theorem detachRunGo_eq (cb : α → Nat) (rest : List α) :
    ∀ (target : Nat) (run : List α),
    detachRunGo cb target run rest =
      (run ++ rest.takeWhile (fun x => cb x == target),
       rest.dropWhile (fun x => cb x == target)) := by
  induction rest with
  | nil => intro t run; simp [detachRunGo]
  | cons nbl rest ih =>
    intro t run
    by_cases hc : cb nbl = t
    · simp [detachRunGo, hc, ih]
    · simp [detachRunGo, hc]

theorem detachRunWithCountGo_eq (cb : α → Nat) (rest : List α) :
    ∀ (target : Nat) (run : List α) (count : Nat),
    detachRunWithCountGo cb target run count rest =
      ((run ++ rest.takeWhile (fun x => cb x == target), count),
       rest.dropWhile (fun x => cb x == target)) := by
  induction rest with
  | nil => intro t run c; simp [detachRunWithCountGo]
  | cons nbl rest ih =>
    intro t run c
    by_cases hc : cb nbl = t
    · simp [detachRunWithCountGo, hc, ih]
    · simp [detachRunWithCountGo, hc]

theorem partialClassify_eq (cb : α → Nat) (h : α) (rest : List α) :
    NdisPartialClassifyNblChainByValue cb h rest =
      ((h :: rest).takeWhile (fun x => cb x == cb h), cb h,
       rest.dropWhile (fun x => cb x == cb h)) := by
  simp [NdisPartialClassifyNblChainByValue, detachRunGo_eq,
    NdisAppendNblChainToNblQueueFast, NdisInitializeNblQueue, List.takeWhile_cons]

theorem classifyByValueGo_eq (cb : α → Nat) (rest : List α) :
    ∀ (target : Nat) (run : List α) (acc : List (Nat × List α)),
    classifyByValueGo cb target run acc rest =
      acc ++ (target, run ++ rest.takeWhile (fun x => cb x == target)) ::
        byValueTrace cb (rest.dropWhile (fun x => cb x == target)) := by
  induction rest with
  | nil =>
    intro t run acc
    simp [classifyByValueGo, byValueTrace, NdisAppendNblChainToNblQueueFast,
      NdisInitializeNblQueue]
  | cons nbl rest ih =>
    intro t run acc
    by_cases hc : cb nbl = t
    · simp [classifyByValueGo, hc, ih]
    · have hb : (cb nbl == t) = false := by simp [hc]
      have hbt : byValueTrace cb (nbl :: rest) =
          (cb nbl, nbl :: rest.takeWhile (fun x => cb x == cb nbl)) ::
            byValueTrace cb (rest.dropWhile (fun x => cb x == cb nbl)) := by
        show NdisClassifyNblChainByValue cb nbl rest = _
        rw [NdisClassifyNblChainByValue, ih]
        simp
      rw [show classifyByValueGo cb t run acc (nbl :: rest) =
          classifyByValueGo cb (cb nbl) [nbl]
            (acc ++ [(t, NdisAppendNblChainToNblQueueFast NdisInitializeNblQueue run)])
            rest from by simp [classifyByValueGo, hc]]
      rw [ih]
      simp only [List.takeWhile_cons, List.dropWhile_cons, hb]
      simp [hbt, NdisAppendNblChainToNblQueueFast, NdisInitializeNblQueue]

theorem byValueTrace_cons (cb : α → Nat) (h : α) (rest : List α) :
    byValueTrace cb (h :: rest) =
      (cb h, h :: rest.takeWhile (fun x => cb x == cb h)) ::
        byValueTrace cb (rest.dropWhile (fun x => cb x == cb h)) := by
  show NdisClassifyNblChainByValue cb h rest = _
  rw [NdisClassifyNblChainByValue, classifyByValueGo_eq]
  simp

theorem dropWhile_head_false (p : α → Bool) {l : List α} {y : α} {ys : List α}
    (hy : l.dropWhile p = y :: ys) : p y = false := by
  have h2 := List.head_dropWhile_not p l (by simp [hy])
  simp only [hy, List.head_cons] at h2
  exact h2

theorem byValueTrace_join_bounded (cb : α → Nat) :
    ∀ (n : Nat) (l : List α), l.length ≤ n →
      ((byValueTrace cb l).map Prod.snd).flatten = l := by
  intro n
  induction n with
  | zero =>
    intro l hl
    rw [List.length_eq_zero.mp (Nat.le_zero.mp hl)]
    simp [byValueTrace]
  | succ n ih =>
    intro l hl
    cases l with
    | nil => simp [byValueTrace]
    | cons h rest =>
      rw [byValueTrace_cons]
      have hd : (rest.dropWhile (fun x => cb x == cb h)).length ≤ n :=
        le_trans ((List.dropWhile_sublist _).length_le)
          (Nat.le_of_succ_le_succ hl)
      simp only [List.map_cons, List.flatten_cons, ih _ hd]
      simp [List.takeWhile_append_dropWhile]

theorem byValueTrace_batches_bounded (cb : α → Nat) :
    ∀ (n : Nat) (l : List α), l.length ≤ n →
      ∀ b ∈ byValueTrace cb l, b.2 ≠ [] ∧ ∀ x ∈ b.2, cb x = b.1 := by
  intro n
  induction n with
  | zero =>
    intro l hl
    rw [List.length_eq_zero.mp (Nat.le_zero.mp hl)]
    simp [byValueTrace]
  | succ n ih =>
    intro l hl b hb
    cases l with
    | nil => simp [byValueTrace] at hb
    | cons h rest =>
      rw [byValueTrace_cons] at hb
      rcases List.mem_cons.mp hb with hb | hb
      · subst hb
        refine ⟨by simp, ?_⟩
        intro x hx
        rcases List.mem_cons.mp hx with hx | hx
        · subst hx; rfl
        · simpa using List.mem_takeWhile_imp hx
      · exact ih _ (le_trans ((List.dropWhile_sublist _).length_le)
          (Nat.le_of_succ_le_succ hl)) b hb

theorem byValueTrace_chain_bounded (cb : α → Nat) :
    ∀ (n : Nat) (l : List α), l.length ≤ n →
      (byValueTrace cb l).Chain' (fun a b => a.1 ≠ b.1) := by
  intro n
  induction n with
  | zero =>
    intro l hl
    rw [List.length_eq_zero.mp (Nat.le_zero.mp hl)]
    simp [byValueTrace]
  | succ n ih =>
    intro l hl
    cases l with
    | nil => simp [byValueTrace]
    | cons h rest =>
      rw [byValueTrace_cons]
      have hd : (rest.dropWhile (fun x => cb x == cb h)).length ≤ n :=
        le_trans ((List.dropWhile_sublist _).length_le)
          (Nat.le_of_succ_le_succ hl)
      refine List.chain'_cons'.mpr ⟨?_, ih _ hd⟩
      intro b hb
      cases hdw : rest.dropWhile (fun x => cb x == cb h) with
      | nil => rw [hdw] at hb; simp [byValueTrace] at hb
      | cons y ys =>
        rw [hdw, byValueTrace_cons] at hb
        simp only [List.head?_cons, Option.mem_def, Option.some.injEq] at hb
        have hy : (cb y == cb h) = false := dropWhile_head_false (fun x => cb x == cb h) hdw
        rw [← hb]
        have : ¬ cb y = cb h := by simpa using hy
        simpa using fun hcontra => this hcontra.symm

theorem byValueTrace_sublist_bounded (cb : α → Nat) :
    ∀ (n : Nat) (l : List α), l.length ≤ n →
      ∀ b ∈ byValueTrace cb l, List.Sublist b.2 l := by
  intro n
  induction n with
  | zero =>
    intro l hl
    rw [List.length_eq_zero.mp (Nat.le_zero.mp hl)]
    simp [byValueTrace]
  | succ n ih =>
    intro l hl b hb
    cases l with
    | nil => simp [byValueTrace] at hb
    | cons h rest =>
      rw [byValueTrace_cons] at hb
      rcases List.mem_cons.mp hb with hb | hb
      · subst hb
        exact (List.takeWhile_sublist _).cons₂ h
      · have hd : (rest.dropWhile (fun x => cb x == cb h)).length ≤ n :=
          le_trans ((List.dropWhile_sublist _).length_le)
            (Nat.le_of_succ_le_succ hl)
        exact ((ih _ hd b hb).trans (List.dropWhile_sublist _)).cons h

theorem detachRunLoop_eq_byValueTrace (cb : α → Nat) :
    ∀ (n : Nat) (l : List α), l.length ≤ n →
      detachRunLoop cb n l = byValueTrace cb l := by
  intro n
  induction n with
  | zero =>
    intro l hl
    rw [List.length_eq_zero.mp (Nat.le_zero.mp hl)]
    simp [detachRunLoop, byValueTrace]
  | succ n ih =>
    intro l hl
    cases l with
    | nil => simp [detachRunLoop, byValueTrace]
    | cons h rest =>
      rw [byValueTrace_cons]
      show (_, _) :: detachRunLoop cb n _ = _
      rw [partialClassify_eq]
      have hd : (rest.dropWhile (fun x => cb x == cb h)).length ≤ n :=
        le_trans ((List.dropWhile_sublist _).length_le)
          (Nat.le_of_succ_le_succ hl)
      simp [ih _ hd, List.takeWhile_cons]

/-- C1: the claim says every classification operation producing an
`NBL_COUNTED_QUEUE` returns with `Count` equal to the number of NBLs
reachable from the queue's head, and in particular that
`NdisPartialClassifyNblChainByValueWithCount` returns `Count` equal to the
length of the detached run.  The code violates this: its loop never
increments `Count`, so on a two-packet equal-key chain the returned queue
holds two NBLs while `Count` stays 1, failing the counted-queue validity
invariant the routine itself asserts on return. -/
theorem C1_counted_queue_count_bug :
    (NdisPartialClassifyNblChainByValueWithCount (fun _ => 7) (10 : Nat) [20]).1 =
      ⟨[10, 20], 1⟩ ∧
    (NdisPartialClassifyNblChainByValueWithCount (fun _ => 7) (10 : Nat) [20]).1.Queue.length = 2 ∧
    ¬ NblCountedQueueValid
      (NdisPartialClassifyNblChainByValueWithCount (fun _ => 7) (10 : Nat) [20]).1 := by
  refine ⟨by decide, by decide, by decide⟩

/-- C3: repeatedly calling `NdisPartialClassifyNblChainByValue` on the
remainder until the chain head becomes null produces exactly the same
sequence of (key, batch) pairs as `NdisClassifyNblChainByValue` reports
through its flush callback on the same input; and each single call detaches
the maximal equal-key front run, returns its key, and rewrites the chain
head to the remainder. -/
theorem C3_pull_equals_eager_push (cb : α → Nat) (h : α) (rest : List α) :
    repeatedDetach cb (h :: rest) = NdisClassifyNblChainByValue cb h rest ∧
    (NdisPartialClassifyNblChainByValue cb h rest).1 =
      (h :: rest).takeWhile (fun x => cb x == cb h) ∧
    (NdisPartialClassifyNblChainByValue cb h rest).1 ++
      (NdisPartialClassifyNblChainByValue cb h rest).2.2 = h :: rest ∧
    (NdisPartialClassifyNblChainByValue cb h rest).2.1 = cb h := by
  refine ⟨?_, ?_, ?_, ?_⟩
  · show detachRunLoop cb (h :: rest).length (h :: rest) = _
    rw [detachRunLoop_eq_byValueTrace cb (h :: rest).length (h :: rest) le_rfl]
    rfl
  · rw [partialClassify_eq]
  · rw [partialClassify_eq]
    simp [List.takeWhile_cons]
  · rw [partialClassify_eq]

/-- C7: `NdisClassifyNblChainByValue` invokes the consume callback exactly
once per maximal contiguous run of equal keys — the flushed batches
concatenate back to the input, each batch is a non-empty run of its reported
key, and adjacent batches carry different keys (so non-adjacent runs of the
same key are never merged); on the interleaved key sequence A,B,A,B,A,B it
issues six singleton flushes, one per packet. -/
theorem C7_eager_one_flush_per_run (cb : α → Nat) (h : α) (rest : List α) :
    ((NdisClassifyNblChainByValue cb h rest).map Prod.snd).flatten = h :: rest ∧
    (∀ b ∈ NdisClassifyNblChainByValue cb h rest, b.2 ≠ [] ∧ ∀ x ∈ b.2, cb x = b.1) ∧
    (NdisClassifyNblChainByValue cb h rest).Chain' (fun a b => a.1 ≠ b.1) ∧
    NdisClassifyNblChainByValue (fun x => x % 2) 1 [2, 3, 4, 5, 6] =
      [(1, [1]), (0, [2]), (1, [3]), (0, [4]), (1, [5]), (0, [6])] := by
  refine ⟨?_, ?_, ?_, by decide⟩
  · exact byValueTrace_join_bounded cb (h :: rest).length (h :: rest) le_rfl
  · exact fun b hb => byValueTrace_batches_bounded cb (h :: rest).length (h :: rest) le_rfl b hb
  · exact byValueTrace_chain_bounded cb (h :: rest).length (h :: rest) le_rfl

theorem C7_witness :
    ((0 : Nat), [2]) ∈ NdisClassifyNblChainByValue (fun x => x % 2) 1 [2, 3] ∧
    ([2] ≠ ([] : List Nat) ∧ ∀ x ∈ [2], x % 2 = 0) := by
  have hm : ((0 : Nat), [2]) ∈ NdisClassifyNblChainByValue (fun x => x % 2) 1 [2, 3] := by
    decide
  exact ⟨hm, (C7_eager_one_flush_per_run (fun x => x % 2) 1 [2, 3]).2.1 (0, [2]) hm⟩

/-- C9: on the five-packet chain whose two-way selector returns the key
sequence 0,0,1,1,0, `NdisClassifyNblChain2` starting from two empty queues
leaves Queue0 holding packets 1, 2, 5 in input order and Queue1 holding
packets 3, 4 in input order. -/
theorem C9_two_way_example :
    NdisClassifyNblChain2 (fun x => if x = 3 ∨ x = 4 then 1 else 0)
      1 [2, 3, 4, 5] [] [] = ([1, 2, 5], [3, 4]) := by
  decide

theorem filter_idx_of_const (cb : α → Nat) (cur j : Nat) :
    ∀ (run : List α), (∀ x ∈ run, cb x = cur) →
      run.filter (fun x => cb x == j) = (if cur = j then run else []) := by
  intro run
  induction run with
  | nil => intro _; simp
  | cons a l ih =>
    intro hr
    have ha : cb a = cur := hr a (by simp)
    have hl := ih (fun x hx => hr x (by simp [hx]))
    by_cases hc : cur = j <;> simp [List.filter_cons, ha, hc, hl]

theorem filter_nonzero_of_const (cb : α → Nat) (cur : Nat) :
    ∀ (run : List α), (∀ x ∈ run, cb x = cur) →
      run.filter (fun x => !(cb x == 0)) = (if cur = 0 then [] else run) := by
  intro run
  induction run with
  | nil => intro _; simp
  | cons a l ih =>
    intro hr
    have ha : cb a = cur := hr a (by simp)
    have hl := ih (fun x hx => hr x (by simp [hx]))
    by_cases hc : cur = 0 <;> simp [List.filter_cons, ha, hc, hl]

theorem classify2Go_eq (cb : α → Nat) (rest : List α) :
    ∀ (cur : Nat) (run q0 q1 : List α), (∀ x ∈ run, cb x = cur) →
    (classify2Go cb cur run q0 q1 rest).1 =
        q0 ++ (run ++ rest).filter (fun x => cb x == 0) ∧
    (classify2Go cb cur run q0 q1 rest).2 =
        q1 ++ (run ++ rest).filter (fun x => !(cb x == 0)) := by
  induction rest with
  | nil =>
    intro cur run q0 q1 hrun
    have hf0 := filter_idx_of_const cb cur 0 run hrun
    have hf1 := filter_nonzero_of_const cb cur run hrun
    by_cases hc : cur = 0 <;>
      simp [classify2Go, NdisAppendNblChainToNblQueueFast, hf0, hf1, hc]
  | cons nbl rest ih =>
    intro cur run q0 q1 hrun
    by_cases hc : cb nbl = cur
    · rw [show classify2Go cb cur run q0 q1 (nbl :: rest) =
          classify2Go cb cur (run ++ [nbl]) q0 q1 rest from by
        simp [classify2Go, hc]]
      have hrun' : ∀ x ∈ run ++ [nbl], cb x = cur := by
        intro x hx
        rcases List.mem_append.mp hx with hx | hx
        · exact hrun x hx
        · simp at hx; subst hx; exact hc
      have hih := ih cur (run ++ [nbl]) q0 q1 hrun'
      simpa [List.append_assoc] using hih
    · have hf0 := filter_idx_of_const cb cur 0 run hrun
      have hf1 := filter_nonzero_of_const cb cur run hrun
      have hrun1 : ∀ x ∈ [nbl], cb x = cb nbl := by simp
      by_cases hcur : cur = 0
      · subst hcur
        rw [show classify2Go cb 0 run q0 q1 (nbl :: rest) =
            classify2Go cb (cb nbl) [nbl] (q0 ++ run) q1 rest from by
          simp [classify2Go, hc, NdisAppendNblChainToNblQueueFast]]
        have hih := ih (cb nbl) [nbl] (q0 ++ run) q1 hrun1
        refine ⟨?_, ?_⟩
        · rw [hih.1]
          simp [List.filter_append, hf0]
        · rw [hih.2]
          simp [List.filter_append, hf1]
      · rw [show classify2Go cb cur run q0 q1 (nbl :: rest) =
            classify2Go cb (cb nbl) [nbl] q0 (q1 ++ run) rest from by
          simp [classify2Go, hc, hcur, NdisAppendNblChainToNblQueueFast]]
        have hih := ih (cb nbl) [nbl] q0 (q1 ++ run) hrun1
        refine ⟨?_, ?_⟩
        · rw [hih.1]
          simp [List.filter_append, hf0, hcur]
        · rw [hih.2]
          simp [List.filter_append, hf1, hcur]

theorem classify2_filter (cb : α → Nat) (h : α) (rest : List α)
    (q0 q1 : List α) :
    (NdisClassifyNblChain2 cb h rest q0 q1).1 =
      q0 ++ (h :: rest).filter (fun x => cb x == 0) ∧
    (NdisClassifyNblChain2 cb h rest q0 q1).2 =
      q1 ++ (h :: rest).filter (fun x => !(cb x == 0)) := by
  have hgo := classify2Go_eq cb rest (cb h) [h] q0 q1 (by simp)
  simpa using hgo

theorem getD_appendAt_self (qs : List (List α)) (i : Nat) (seg : List α)
    (hi : i < qs.length) :
    (appendAt qs i seg).getD i [] = qs.getD i [] ++ seg := by
  simp [appendAt, NdisAppendNblChainToNblQueueFast, List.getElem?_set_self hi]

theorem getD_appendAt_ne (qs : List (List α)) (i j : Nat) (seg : List α)
    (hij : i ≠ j) : (appendAt qs i seg).getD j [] = qs.getD j [] := by
  simp [appendAt, List.getElem?_set_ne hij]

theorem classifyByIndexGo_filter (cb : α → Nat) (rest : List α) :
    ∀ (cur : Nat) (run : List α) (qs : List (List α)),
      (∀ x ∈ run, cb x = cur) → cur < qs.length →
      (∀ x ∈ rest, cb x < qs.length) →
      ∀ j, (classifyByIndexGo cb cur run qs rest).getD j [] =
        qs.getD j [] ++ (run ++ rest).filter (fun x => cb x == j) := by
  induction rest with
  | nil =>
    intro cur run qs hrun hcur _ j
    by_cases hj : j = cur
    · subst hj
      rw [show classifyByIndexGo cb j run qs [] = appendAt qs j run from rfl]
      rw [getD_appendAt_self qs j run hcur]
      simp [filter_idx_of_const cb j j run hrun]
    · rw [show classifyByIndexGo cb cur run qs [] = appendAt qs cur run from rfl]
      rw [getD_appendAt_ne qs cur j run (Ne.symm hj)]
      simp [filter_idx_of_const cb cur j run hrun, Ne.symm hj]
  | cons nbl rest ih =>
    intro cur run qs hrun hcur hrest j
    by_cases hc : cb nbl = cur
    · rw [show classifyByIndexGo cb cur run qs (nbl :: rest) =
          classifyByIndexGo cb cur (run ++ [nbl]) qs rest from by
        simp [classifyByIndexGo, hc]]
      have hrun' : ∀ x ∈ run ++ [nbl], cb x = cur := by
        intro x hx
        rcases List.mem_append.mp hx with hx | hx
        · exact hrun x hx
        · simp at hx; subst hx; exact hc
      rw [ih cur (run ++ [nbl]) qs hrun' hcur (fun x hx => hrest x (by simp [hx])) j]
      simp [List.append_assoc]
    · rw [show classifyByIndexGo cb cur run qs (nbl :: rest) =
          classifyByIndexGo cb (cb nbl) [nbl] (appendAt qs cur run) rest from by
        simp [classifyByIndexGo, hc]]
      have hlen : (appendAt qs cur run).length = qs.length := by simp [appendAt]
      have hnbl : cb nbl < qs.length := hrest nbl (by simp)
      rw [ih (cb nbl) [nbl] (appendAt qs cur run) (by simp) (by rw [hlen]; exact hnbl)
        (fun x hx => by rw [hlen]; exact hrest x (by simp [hx])) j]
      by_cases hj : j = cur
      · subst hj
        rw [getD_appendAt_self qs j run hcur]
        simp [List.filter_append, filter_idx_of_const cb j j run hrun]
      · rw [getD_appendAt_ne qs cur j run (Ne.symm hj)]
        simp [List.filter_append, filter_idx_of_const cb cur j run hrun, Ne.symm hj]

theorem queuesMass_appendAt (qs : List (List α)) :
    ∀ (i : Nat) (seg : List α), i < qs.length →
      (((appendAt qs i seg).map fun q => Multiset.ofList q).sum) =
        ((qs.map fun q => Multiset.ofList q).sum) + (seg : Multiset α) := by
  induction qs with
  | nil => intro i seg hi; simp at hi
  | cons q qs ih =>
    intro i seg hi
    cases i with
    | zero =>
      simp [appendAt, NdisAppendNblChainToNblQueueFast, ← Multiset.coe_add]
      abel
    | succ i =>
      have hi' : i < qs.length := Nat.lt_of_succ_lt_succ hi
      have heq : appendAt (q :: qs) (i + 1) seg = q :: appendAt qs i seg := by
        simp [appendAt, NdisAppendNblChainToNblQueueFast]
      rw [heq]
      simp only [List.map_cons, List.sum_cons]
      rw [ih i seg hi']
      abel

theorem flatten_coe_sum (qs : List (List α)) :
    ((qs.flatten : List α) : Multiset α) = (qs.map fun q => Multiset.ofList q).sum := by
  induction qs with
  | nil => simp
  | cons q qs ih => simp [← Multiset.coe_add, ih]

theorem classifyByIndexGo_mass (cb : α → Nat) (rest : List α) :
    ∀ (cur : Nat) (run : List α) (qs : List (List α)),
      cur < qs.length → (∀ x ∈ rest, cb x < qs.length) →
      (((classifyByIndexGo cb cur run qs rest).map fun q => Multiset.ofList q).sum) =
        ((qs.map fun q => Multiset.ofList q).sum) + ((run ++ rest : List α) : Multiset α) := by
  induction rest with
  | nil =>
    intro cur run qs hcur _
    rw [show classifyByIndexGo cb cur run qs [] = appendAt qs cur run from rfl]
    rw [queuesMass_appendAt qs cur run hcur]
    simp
  | cons nbl rest ih =>
    intro cur run qs hcur hrest
    by_cases hc : cb nbl = cur
    · rw [show classifyByIndexGo cb cur run qs (nbl :: rest) =
          classifyByIndexGo cb cur (run ++ [nbl]) qs rest from by
        simp [classifyByIndexGo, hc]]
      rw [ih cur (run ++ [nbl]) qs hcur (fun x hx => hrest x (by simp [hx]))]
      simp [List.append_assoc]
    · rw [show classifyByIndexGo cb cur run qs (nbl :: rest) =
          classifyByIndexGo cb (cb nbl) [nbl] (appendAt qs cur run) rest from by
        simp [classifyByIndexGo, hc]]
      have hlen : (appendAt qs cur run).length = qs.length := by simp [appendAt]
      rw [ih (cb nbl) [nbl] (appendAt qs cur run)
        (by rw [hlen]; exact hrest nbl (by simp))
        (fun x hx => by rw [hlen]; exact hrest x (by simp [hx]))]
      rw [queuesMass_appendAt qs cur run hcur]
      simp [← Multiset.coe_add]
      abel

theorem cAppendAt_map_queue (qs : List (NBL_COUNTED_QUEUE α)) (i : Nat)
    (seg : List α) (c : Nat) :
    (cAppendAt qs i seg c).map NBL_COUNTED_QUEUE.Queue =
      appendAt (qs.map NBL_COUNTED_QUEUE.Queue) i seg := by
  simp [cAppendAt, appendAt, NdisAppendNblChainToNblCountedQueueFast,
    NdisAppendNblChainToNblQueueFast]
  cases qs[i]? <;> rfl

theorem classifyByIndexWithCountGo_map (cb : α → Nat) (rest : List α) :
    ∀ (cur : Nat) (run : List α) (count : Nat) (qs : List (NBL_COUNTED_QUEUE α)),
    (classifyByIndexWithCountGo cb cur cur run count qs rest).map NBL_COUNTED_QUEUE.Queue =
      classifyByIndexGo cb cur run (qs.map NBL_COUNTED_QUEUE.Queue) rest := by
  induction rest with
  | nil =>
    intro cur run count qs
    rw [show classifyByIndexWithCountGo cb cur cur run count qs [] =
        cAppendAt qs cur run count from rfl]
    rw [show classifyByIndexGo cb cur run (qs.map NBL_COUNTED_QUEUE.Queue) [] =
        appendAt (qs.map NBL_COUNTED_QUEUE.Queue) cur run from rfl]
    exact cAppendAt_map_queue qs cur run count
  | cons nbl rest ih =>
    intro cur run count qs
    by_cases hc : cb nbl = cur
    · rw [show classifyByIndexWithCountGo cb cur cur run count qs (nbl :: rest) =
          classifyByIndexWithCountGo cb cur (cb nbl) (run ++ [nbl]) (count + 1) qs rest from by
        simp [classifyByIndexWithCountGo, hc]]
      rw [show classifyByIndexGo cb cur run (qs.map NBL_COUNTED_QUEUE.Queue) (nbl :: rest) =
          classifyByIndexGo cb cur (run ++ [nbl]) (qs.map NBL_COUNTED_QUEUE.Queue) rest from by
        simp [classifyByIndexGo, hc]]
      rw [hc]
      exact ih cur (run ++ [nbl]) (count + 1) qs
    · rw [show classifyByIndexWithCountGo cb cur cur run count qs (nbl :: rest) =
          classifyByIndexWithCountGo cb (cb nbl) (cb nbl) [nbl] 1
            (cAppendAt qs cur run count) rest from by
        simp [classifyByIndexWithCountGo, hc]]
      rw [show classifyByIndexGo cb cur run (qs.map NBL_COUNTED_QUEUE.Queue) (nbl :: rest) =
          classifyByIndexGo cb (cb nbl) [nbl]
            (appendAt (qs.map NBL_COUNTED_QUEUE.Queue) cur run) rest from by
        simp [classifyByIndexGo, hc]]
      rw [ih (cb nbl) [nbl] 1 (cAppendAt qs cur run count)]
      rw [cAppendAt_map_queue qs cur run count]

/-- C10: for in-range selectors, the counted N-way classifier routes exactly
the same sub-chains, in the same order, into queue `i` as the uncounted one
(forgetting the counts of the counted result gives the uncounted result),
even though the counted variant performs its final append with `ThisIndex`
where the uncounted variant uses `CurrentIndex`. -/
theorem C10_counted_matches_uncounted (cb : α → Nat) (h : α) (rest : List α)
    (qs : List (NBL_COUNTED_QUEUE α))
    (_hin : ∀ x ∈ h :: rest, cb x < qs.length) :
    (NdisClassifyNblChainByIndexWithCount cb h rest qs).map NBL_COUNTED_QUEUE.Queue =
      NdisClassifyNblChainByIndex cb h rest (qs.map NBL_COUNTED_QUEUE.Queue) := by
  exact classifyByIndexWithCountGo_map cb rest (cb h) [h] 1 qs

theorem C10_witness :
    (∀ x ∈ [1, 2, 3], x % 2 < 2) ∧
    (NdisClassifyNblChainByIndexWithCount (fun x => x % 2) 1 [2, 3]
        [⟨[], 0⟩, ⟨[], 0⟩]).map NBL_COUNTED_QUEUE.Queue =
      NdisClassifyNblChainByIndex (fun x => x % 2) 1 [2, 3] [[], []] := by
  refine ⟨by decide, ?_⟩
  exact C10_counted_matches_uncounted (fun x => x % 2) 1 [2, 3]
    [⟨[], 0⟩, ⟨[], 0⟩] (by decide)

theorem scanSlots_append_replicate (key : Nat) :
    ∀ (v : List (NblSlot α)) (m : Nat), (∀ s ∈ v, s.Valid = true) →
      scanSlots key (v ++ List.replicate m invalidSlot) =
        (match v.findIdx? (fun s => s.Target == key) with
         | some j => some (j, false)
         | none => if m = 0 then none else some (v.length, true)) := by
  intro v
  induction v with
  | nil =>
    intro m _
    cases m with
    | zero => simp [scanSlots]
    | succ m => simp [List.replicate_succ, scanSlots, invalidSlot]
  | cons s v ih =>
    intro m hv
    have hs : s.Valid = true := hv s (by simp)
    by_cases hk : s.Target = key
    · simp [scanSlots, hs, hk, List.findIdx?_cons]
    · have htail := ih m (fun x hx => hv x (by simp [hx]))
      rw [show scanSlots key ((s :: v) ++ List.replicate m invalidSlot) =
          (match scanSlots key (v ++ List.replicate m invalidSlot) with
           | some (i, b) => some (i + 1, b)
           | none => none) from by
        simp [scanSlots, hs, hk]]
      rw [htail]
      cases hf : v.findIdx? (fun s => s.Target == key) with
      | some j => simp [List.findIdx?_cons, hk, hf]
      | none =>
        cases m with
        | zero => simp [List.findIdx?_cons, hk, hf]
        | succ m => simp [List.findIdx?_cons, hk, hf]

theorem findIdxLtLength {p : α → Bool} :
    ∀ (l : List α) (j : Nat), l.findIdx? p = some j → j < l.length := by
  intro l
  induction l with
  | nil => intro j hj; simp at hj
  | cons a l ih =>
    intro j hj
    rw [List.findIdx?_cons] at hj
    by_cases ha : p a
    · simp [ha] at hj
      simp only [List.length_cons]
      omega
    · simp [ha] at hj
      obtain ⟨i, hi, hji⟩ := hj
      have := ih i hi
      simp only [List.length_cons]
      omega

theorem getD_mem_of_lt (l : List α) (i : Nat) (d : α) (hi : i < l.length) :
    l.getD i d ∈ l := by
  rw [List.getD_eq_getElem l d hi]
  exact List.getElem_mem hi

theorem appendToSlot_shape (v : List (NblSlot α)) (m : Nat) (i : Nat)
    (seg : List α) (hi : i < v.length) :
    appendToSlot (v ++ List.replicate m invalidSlot) i seg =
      v.set i { v.getD i invalidSlot with
        Queue := (v.getD i invalidSlot).Queue ++ seg } ++
        List.replicate m invalidSlot := by
  unfold appendToSlot NdisAppendNblChainToNblQueueFast
  rw [List.getD_append _ _ _ _ hi, List.set_append_left _ _ hi]

theorem slotsMass_cons (s : NblSlot α) (v : List (NblSlot α)) :
    slotsMass (s :: v) = Multiset.ofList s.Queue + slotsMass v := by
  simp [slotsMass]

theorem slotsMass_append (l₁ l₂ : List (NblSlot α)) :
    slotsMass (l₁ ++ l₂) = slotsMass l₁ + slotsMass l₂ := by
  simp [slotsMass]

theorem slotsMass_replicate (m : Nat) :
    slotsMass (List.replicate m (invalidSlot : NblSlot α)) = 0 := by
  induction m with
  | zero => simp [slotsMass]
  | succ m ih =>
    rw [List.replicate_succ, slotsMass_cons, ih]
    simp [invalidSlot]

theorem slotsMass_set (v : List (NblSlot α)) :
    ∀ (i : Nat) (x : NblSlot α), i < v.length →
      slotsMass (v.set i x) + Multiset.ofList (v.getD i invalidSlot).Queue =
        slotsMass v + Multiset.ofList x.Queue := by
  induction v with
  | nil => intro i x hi; simp at hi
  | cons s v ih =>
    intro i x hi
    cases i with
    | zero =>
      rw [List.set_cons_zero, slotsMass_cons, slotsMass_cons, List.getD_cons_zero]
      abel
    | succ i =>
      have hi' := Nat.lt_of_succ_lt_succ hi
      rw [List.set_cons_succ, slotsMass_cons, slotsMass_cons, List.getD_cons_succ,
        add_assoc, ih i x hi', ← add_assoc]

theorem slotsMass_appendToSlot (v : List (NblSlot α)) (m i : Nat) (seg : List α)
    (hi : i < v.length) :
    slotsMass (appendToSlot (v ++ List.replicate m invalidSlot) i seg) =
      slotsMass (v ++ List.replicate m invalidSlot) + Multiset.ofList seg := by
  rw [appendToSlot_shape v m i seg hi, slotsMass_append, slotsMass_append,
    slotsMass_replicate]
  have h := slotsMass_set v i
    { v.getD i invalidSlot with
      Queue := (v.getD i invalidSlot).Queue ++ seg } hi
  have h2 : Multiset.ofList ((v.getD i invalidSlot).Queue ++ seg) =
      Multiset.ofList (v.getD i invalidSlot).Queue + Multiset.ofList seg :=
    (Multiset.coe_add _ _).symm
  rw [show ({ v.getD i invalidSlot with
      Queue := (v.getD i invalidSlot).Queue ++ seg } : NblSlot α).Queue =
      (v.getD i invalidSlot).Queue ++ seg from rfl, h2] at h
  have h3 : slotsMass (v.set i { v.getD i invalidSlot with
      Queue := (v.getD i invalidSlot).Queue ++ seg }) +
        Multiset.ofList (v.getD i invalidSlot).Queue =
      (slotsMass v + Multiset.ofList seg) +
        Multiset.ofList (v.getD i invalidSlot).Queue := by
    rw [h]; abel
  have h4 := add_right_cancel h3
  rw [h4]
  abel

theorem flushLoop_replicate (m : Nat) :
    flushLoop (List.replicate m (invalidSlot : NblSlot α)) = [] := by
  cases m with
  | zero => rfl
  | succ m => simp [List.replicate_succ, flushLoop, invalidSlot]

theorem flushLoop_append_replicate :
    ∀ (v : List (NblSlot α)) (m : Nat), (∀ s ∈ v, s.Valid = true) →
      flushLoop (v ++ List.replicate m invalidSlot) =
        v.map fun s => (s.Target, s.Queue) := by
  intro v
  induction v with
  | nil => intro m _; simp [flushLoop_replicate]
  | cons s v ih =>
    intro m hv
    have hs := hv s (by simp)
    rw [show flushLoop ((s :: v) ++ List.replicate m invalidSlot) =
        (s.Target, s.Queue) :: flushLoop (v ++ List.replicate m invalidSlot) from by
      simp [flushLoop, hs]]
    rw [ih m (fun x hx => hv x (by simp [hx]))]
    simp

theorem traceMass_append (t₁ t₂ : List (Nat × List α)) :
    traceMass (t₁ ++ t₂) = traceMass t₁ + traceMass t₂ := by
  simp [traceMass]

theorem traceMass_map_slots (v : List (NblSlot α)) :
    traceMass (v.map fun s => (s.Target, s.Queue)) = slotsMass v := by
  simp only [traceMass, slotsMass, List.map_map]
  rfl

theorem traceMass_eq_flatten (tr : List (Nat × List α)) :
    traceMass tr = Multiset.ofList ((tr.map Prod.snd).flatten) := by
  induction tr with
  | nil => simp [traceMass]
  | cons b tr ih =>
    rw [show traceMass (b :: tr) = Multiset.ofList b.2 + traceMass tr from by
      simp [traceMass]]
    rw [ih]
    simp [← Multiset.coe_add]

theorem ofList_append (l₁ l₂ : List α) :
    Multiset.ofList (l₁ ++ l₂) = Multiset.ofList l₁ + Multiset.ofList l₂ :=
  (Multiset.coe_add _ _).symm

theorem ofList_cons (a : α) (l : List α) :
    Multiset.ofList (a :: l) = Multiset.ofList [a] + Multiset.ofList l := by
  rw [← List.singleton_append]
  exact ofList_append _ _

theorem scanSlots_eq_none {key : Nat} :
    ∀ {slots : List (NblSlot α)},
      (∀ s ∈ slots, s.Valid = true ∧ s.Target ≠ key) →
      scanSlots key slots = none := by
  intro slots
  induction slots with
  | nil => intro _; rfl
  | cons s rest ih =>
    intro hall
    have hs := hall s (by simp)
    simp [scanSlots, hs.1, hs.2, ih (fun x hx => hall x (by simp [hx]))]

theorem lookaheadDispatch_empty {next : Nat} {slots1 : List (NblSlot α)}
    {i : Nat} (h : scanSlots next slots1 = some (i, true))
    (prevIdx : Nat) (acc : List (Nat × List α)) :
    lookaheadDispatch next slots1 prevIdx acc =
      (slots1.set i ⟨true, next, NdisInitializeNblQueue⟩, i, acc) := by
  simp [lookaheadDispatch, h]

theorem lookaheadDispatch_matched {next : Nat} {slots1 : List (NblSlot α)}
    {i : Nat} (h : scanSlots next slots1 = some (i, false))
    (prevIdx : Nat) (acc : List (Nat × List α)) :
    lookaheadDispatch next slots1 prevIdx acc = (slots1, i, acc) := by
  simp [lookaheadDispatch, h]

theorem lookaheadDispatch_evict {next : Nat} {slots1 : List (NblSlot α)}
    (h : scanSlots next slots1 = none)
    (prevIdx : Nat) (acc : List (Nat × List α)) :
    lookaheadDispatch next slots1 prevIdx acc =
      (slots1.set ((prevIdx + 1) % slots1.length)
        ⟨(slots1.getD ((prevIdx + 1) % slots1.length) invalidSlot).Valid, next,
          NdisInitializeNblQueue⟩,
       (prevIdx + 1) % slots1.length,
       acc ++ [((slots1.getD ((prevIdx + 1) % slots1.length) invalidSlot).Target,
                (slots1.getD ((prevIdx + 1) % slots1.length) invalidSlot).Queue)]) := by
  simp [lookaheadDispatch, h]

theorem lookaheadGo_cons_ne (cb : α → Nat) (slots : List (NblSlot α))
    (prevIdx : Nat) (run : List α) (acc : List (Nat × List α)) (nbl : α)
    (rest : List α) (h : (slots.getD prevIdx invalidSlot).Target ≠ cb nbl) :
    lookaheadGo cb slots prevIdx run acc (nbl :: rest) =
      lookaheadGo cb
        (lookaheadDispatch (cb nbl) (appendToSlot slots prevIdx run) prevIdx acc).1
        (lookaheadDispatch (cb nbl) (appendToSlot slots prevIdx run) prevIdx acc).2.1
        [nbl]
        (lookaheadDispatch (cb nbl) (appendToSlot slots prevIdx run) prevIdx acc).2.2
        rest := by
  show (if (slots.getD prevIdx invalidSlot).Target ≠ cb nbl then
      lookaheadGo cb
        (lookaheadDispatch (cb nbl) (appendToSlot slots prevIdx run) prevIdx acc).1
        (lookaheadDispatch (cb nbl) (appendToSlot slots prevIdx run) prevIdx acc).2.1
        [nbl]
        (lookaheadDispatch (cb nbl) (appendToSlot slots prevIdx run) prevIdx acc).2.2
        rest
    else lookaheadGo cb slots prevIdx (run ++ [nbl]) acc rest) = _
  rw [if_pos h]

theorem lookaheadGo_cons_eq (cb : α → Nat) (slots : List (NblSlot α))
    (prevIdx : Nat) (run : List α) (acc : List (Nat × List α)) (nbl : α)
    (rest : List α) (h : (slots.getD prevIdx invalidSlot).Target = cb nbl) :
    lookaheadGo cb slots prevIdx run acc (nbl :: rest) =
      lookaheadGo cb slots prevIdx (run ++ [nbl]) acc rest := by
  show (if (slots.getD prevIdx invalidSlot).Target ≠ cb nbl then
      lookaheadGo cb
        (lookaheadDispatch (cb nbl) (appendToSlot slots prevIdx run) prevIdx acc).1
        (lookaheadDispatch (cb nbl) (appendToSlot slots prevIdx run) prevIdx acc).2.1
        [nbl]
        (lookaheadDispatch (cb nbl) (appendToSlot slots prevIdx run) prevIdx acc).2.2
        rest
    else lookaheadGo cb slots prevIdx (run ++ [nbl]) acc rest) = _
  rw [if_neg (fun hne => hne h)]

theorem set_valid {v : List (NblSlot α)} (hv : ∀ s ∈ v, s.Valid = true)
    {x : NblSlot α} (hx : x.Valid = true) (i : Nat) :
    ∀ s ∈ v.set i x, s.Valid = true := by
  intro s hs
  rcases List.mem_or_eq_of_mem_set hs with hmem | rfl
  · exact hv s hmem
  · exact hx

theorem appended_slot_valid {v : List (NblSlot α)} (hv : ∀ s ∈ v, s.Valid = true)
    {i : Nat} (hi : i < v.length) (seg : List α) :
    ({ v.getD i invalidSlot with
       Queue := (v.getD i invalidSlot).Queue ++ seg } : NblSlot α).Valid = true := by
  show (v.getD i invalidSlot).Valid = true
  exact hv _ (getD_mem_of_lt v i invalidSlot hi)

theorem slotsMass_set_nil (v : List (NblSlot α)) (i : Nat) (x : NblSlot α)
    (hx : x.Queue = []) (hi : i < v.length) :
    slotsMass (v.set i x) + Multiset.ofList (v.getD i invalidSlot).Queue =
      slotsMass v := by
  have h := slotsMass_set v i x hi
  rw [hx] at h
  simpa using h

theorem slotsMass_set_run (v : List (NblSlot α)) (i : Nat) (seg : List α)
    (hi : i < v.length) :
    slotsMass (v.set i { v.getD i invalidSlot with
        Queue := (v.getD i invalidSlot).Queue ++ seg }) =
      slotsMass v + Multiset.ofList seg := by
  have h := slotsMass_set v i
    { v.getD i invalidSlot with
      Queue := (v.getD i invalidSlot).Queue ++ seg } hi
  rw [show ({ v.getD i invalidSlot with
      Queue := (v.getD i invalidSlot).Queue ++ seg } : NblSlot α).Queue =
      (v.getD i invalidSlot).Queue ++ seg from rfl, ofList_append] at h
  have h3 : slotsMass (v.set i { v.getD i invalidSlot with
      Queue := (v.getD i invalidSlot).Queue ++ seg }) +
        Multiset.ofList (v.getD i invalidSlot).Queue =
      (slotsMass v + Multiset.ofList seg) +
        Multiset.ofList (v.getD i invalidSlot).Queue := by
    rw [h]; abel
  exact add_right_cancel h3

theorem lookaheadGo_step_matched (cb : α → Nat) {slots : List (NblSlot α)}
    {prevIdx : Nat} {run : List α} {acc : List (Nat × List α)} {nbl : α}
    {i : Nat} (rest : List α)
    (hT : (slots.getD prevIdx invalidSlot).Target ≠ cb nbl)
    (hs : scanSlots (cb nbl) (appendToSlot slots prevIdx run) = some (i, false)) :
    lookaheadGo cb slots prevIdx run acc (nbl :: rest) =
      lookaheadGo cb (appendToSlot slots prevIdx run) i [nbl] acc rest := by
  rw [lookaheadGo_cons_ne cb slots prevIdx run acc nbl rest hT]
  simp [lookaheadDispatch_matched hs prevIdx acc]

theorem lookaheadGo_step_empty (cb : α → Nat) {slots : List (NblSlot α)}
    {prevIdx : Nat} {run : List α} {acc : List (Nat × List α)} {nbl : α}
    {i : Nat} (rest : List α)
    (hT : (slots.getD prevIdx invalidSlot).Target ≠ cb nbl)
    (hs : scanSlots (cb nbl) (appendToSlot slots prevIdx run) = some (i, true)) :
    lookaheadGo cb slots prevIdx run acc (nbl :: rest) =
      lookaheadGo cb
        ((appendToSlot slots prevIdx run).set i ⟨true, cb nbl, NdisInitializeNblQueue⟩)
        i [nbl] acc rest := by
  rw [lookaheadGo_cons_ne cb slots prevIdx run acc nbl rest hT]
  simp [lookaheadDispatch_empty hs prevIdx acc]

theorem lookaheadGo_step_evict (cb : α → Nat) {slots : List (NblSlot α)}
    {prevIdx : Nat} {run : List α} {acc : List (Nat × List α)} {nbl : α}
    (rest : List α)
    (hT : (slots.getD prevIdx invalidSlot).Target ≠ cb nbl)
    (hs : scanSlots (cb nbl) (appendToSlot slots prevIdx run) = none) :
    lookaheadGo cb slots prevIdx run acc (nbl :: rest) =
      lookaheadGo cb
        ((appendToSlot slots prevIdx run).set
          ((prevIdx + 1) % (appendToSlot slots prevIdx run).length)
          ⟨((appendToSlot slots prevIdx run).getD
              ((prevIdx + 1) % (appendToSlot slots prevIdx run).length)
              invalidSlot).Valid,
            cb nbl, NdisInitializeNblQueue⟩)
        ((prevIdx + 1) % (appendToSlot slots prevIdx run).length)
        [nbl]
        (acc ++ [(((appendToSlot slots prevIdx run).getD
            ((prevIdx + 1) % (appendToSlot slots prevIdx run).length)
            invalidSlot).Target,
          ((appendToSlot slots prevIdx run).getD
            ((prevIdx + 1) % (appendToSlot slots prevIdx run).length)
            invalidSlot).Queue)])
        rest := by
  rw [lookaheadGo_cons_ne cb slots prevIdx run acc nbl rest hT]
  simp [lookaheadDispatch_evict hs prevIdx acc]

theorem append_repl_zero (l : List α) (b : α) :
    l ++ List.replicate 0 b = l := by simp

theorem lookaheadGo_mass (cb : α → Nat) (rest : List α) :
    ∀ (v : List (NblSlot α)) (m : Nat) (prevIdx : Nat) (run : List α)
      (acc : List (Nat × List α)),
      (∀ s ∈ v, s.Valid = true) → prevIdx < v.length →
      traceMass
          (lookaheadGo cb (v ++ List.replicate m invalidSlot) prevIdx run acc rest).2.2 +
        traceMass (flushLoop
          (lookaheadGo cb (v ++ List.replicate m invalidSlot) prevIdx run acc rest).1) =
      traceMass acc + slotsMass v + Multiset.ofList run + Multiset.ofList rest := by
  induction rest with
  | nil =>
    intro v m prevIdx run acc hv hp
    show traceMass acc + traceMass (flushLoop
        (appendToSlot (v ++ List.replicate m invalidSlot) prevIdx run)) = _
    rw [appendToSlot_shape v m prevIdx run hp]
    rw [flushLoop_append_replicate _ m
      (set_valid hv (appended_slot_valid hv hp run) prevIdx)]
    rw [traceMass_map_slots]
    rw [slotsMass_set_run v prevIdx run hp]
    simp only [Multiset.coe_nil, add_zero, add_assoc]
  | cons nbl rest ih =>
    intro v m prevIdx run acc hv hp
    have hvp : (v ++ List.replicate m invalidSlot).getD prevIdx invalidSlot =
        v.getD prevIdx invalidSlot := List.getD_append _ _ _ _ hp
    have hv1 : ∀ s ∈ v.set prevIdx { v.getD prevIdx invalidSlot with
        Queue := (v.getD prevIdx invalidSlot).Queue ++ run }, s.Valid = true :=
      set_valid hv (appended_slot_valid hv hp run) prevIdx
    have hscan := scanSlots_append_replicate (cb nbl)
      (v.set prevIdx { v.getD prevIdx invalidSlot with
        Queue := (v.getD prevIdx invalidSlot).Queue ++ run }) m hv1
    by_cases hcond : (v.getD prevIdx invalidSlot).Target = cb nbl
    · rw [lookaheadGo_cons_eq cb _ prevIdx run acc nbl rest (by rw [hvp]; exact hcond)]
      rw [ih v m prevIdx (run ++ [nbl]) acc hv hp]
      rw [ofList_append, ofList_cons nbl rest]
      abel
    · cases hf : (v.set prevIdx { v.getD prevIdx invalidSlot with
          Queue := (v.getD prevIdx invalidSlot).Queue ++ run }).findIdx?
          (fun s => s.Target == cb nbl) with
      | some j =>
        have hscan2 : scanSlots (cb nbl)
            (appendToSlot (v ++ List.replicate m invalidSlot) prevIdx run) =
            some (j, false) := by
          rw [appendToSlot_shape v m prevIdx run hp, hscan, hf]
        rw [lookaheadGo_step_matched cb rest (by rw [hvp]; exact hcond) hscan2]
        rw [appendToSlot_shape v m prevIdx run hp]
        have hj : j < (v.set prevIdx { v.getD prevIdx invalidSlot with
            Queue := (v.getD prevIdx invalidSlot).Queue ++ run }).length :=
          findIdxLtLength _ j hf
        rw [ih _ m j [nbl] acc hv1 hj]
        rw [slotsMass_set_run v prevIdx run hp, ofList_cons nbl rest]
        abel
      | none =>
        cases m with
        | succ mm =>
          have hscan2 : scanSlots (cb nbl)
              (appendToSlot (v ++ List.replicate (mm + 1) invalidSlot) prevIdx run) =
              some ((v.set prevIdx { v.getD prevIdx invalidSlot with
                Queue := (v.getD prevIdx invalidSlot).Queue ++ run }).length, true) := by
            rw [appendToSlot_shape v (mm + 1) prevIdx run hp, hscan, hf]
            simp
          rw [lookaheadGo_step_empty cb rest (by rw [hvp]; exact hcond) hscan2]
          rw [appendToSlot_shape v (mm + 1) prevIdx run hp]
          rw [List.set_append_right _ _ (le_refl _)]
          rw [Nat.sub_self, List.replicate_succ, List.set_cons_zero]
          rw [List.append_cons]
          have hv2 : ∀ s ∈ (v.set prevIdx { v.getD prevIdx invalidSlot with
              Queue := (v.getD prevIdx invalidSlot).Queue ++ run }) ++
              [(⟨true, cb nbl, NdisInitializeNblQueue⟩ : NblSlot α)], s.Valid = true := by
            intro s hs
            rcases List.mem_append.mp hs with hmem | hmem
            · exact hv1 s hmem
            · simp at hmem; subst hmem; rfl
          have hp2 : (v.set prevIdx { v.getD prevIdx invalidSlot with
              Queue := (v.getD prevIdx invalidSlot).Queue ++ run }).length <
              ((v.set prevIdx { v.getD prevIdx invalidSlot with
                Queue := (v.getD prevIdx invalidSlot).Queue ++ run }) ++
                [(⟨true, cb nbl, NdisInitializeNblQueue⟩ : NblSlot α)]).length := by
            simp
          rw [ih _ mm _ [nbl] acc hv2 hp2]
          rw [slotsMass_append, slotsMass_set_run v prevIdx run hp]
          rw [show slotsMass [(⟨true, cb nbl, NdisInitializeNblQueue⟩ : NblSlot α)] = 0 from by
            simp [slotsMass, NdisInitializeNblQueue]]
          rw [ofList_cons nbl rest]
          abel
        | zero =>
          have hshape0 : appendToSlot v prevIdx run =
              v.set prevIdx { v.getD prevIdx invalidSlot with
                Queue := (v.getD prevIdx invalidSlot).Queue ++ run } := by
            have h0 := appendToSlot_shape v 0 prevIdx run hp
            simpa using h0
          have hlenw : (v.set prevIdx { v.getD prevIdx invalidSlot with
              Queue := (v.getD prevIdx invalidSlot).Queue ++ run }).length = v.length := by
            simp
          have hmassw : slotsMass (v.set prevIdx { v.getD prevIdx invalidSlot with
              Queue := (v.getD prevIdx invalidSlot).Queue ++ run }) =
              slotsMass v + Multiset.ofList run :=
            slotsMass_set_run v prevIdx run hp
          simp only [List.replicate_zero, List.append_nil] at hscan ⊢
          generalize hw : v.set prevIdx { v.getD prevIdx invalidSlot with
              Queue := (v.getD prevIdx invalidSlot).Queue ++ run } = w
            at hv1 hf hscan hlenw hmassw hshape0
          have hscan2 : scanSlots (cb nbl) (appendToSlot v prevIdx run) = none := by
            rw [hshape0, hscan, hf]
            simp
          rw [lookaheadGo_step_evict cb rest hcond hscan2]
          rw [hshape0]
          have hvpos : 0 < w.length := by
            rw [hlenw]
            exact Nat.lt_of_le_of_lt (Nat.zero_le prevIdx) hp
          have he : (prevIdx + 1) % w.length < w.length := Nat.mod_lt _ hvpos
          have hv2 : ∀ s ∈ w.set ((prevIdx + 1) % w.length)
              ⟨(w.getD ((prevIdx + 1) % w.length) invalidSlot).Valid, cb nbl,
                NdisInitializeNblQueue⟩, s.Valid = true := by
            apply set_valid hv1
            show (w.getD ((prevIdx + 1) % w.length) invalidSlot).Valid = true
            exact hv1 _ (getD_mem_of_lt _ _ invalidSlot he)
          have hIH := ih (w.set ((prevIdx + 1) % w.length)
              ⟨(w.getD ((prevIdx + 1) % w.length) invalidSlot).Valid, cb nbl,
                NdisInitializeNblQueue⟩) 0 ((prevIdx + 1) % w.length) [nbl]
              (acc ++ [((w.getD ((prevIdx + 1) % w.length) invalidSlot).Target,
                        (w.getD ((prevIdx + 1) % w.length) invalidSlot).Queue)])
              hv2 (by simp only [List.length_set]; exact he)
          simp only [List.replicate_zero, List.append_nil] at hIH
          rw [hIH, traceMass_append]
          have hsingle : traceMass
              [((w.getD ((prevIdx + 1) % w.length) invalidSlot).Target,
                (w.getD ((prevIdx + 1) % w.length) invalidSlot).Queue)] =
              Multiset.ofList (w.getD ((prevIdx + 1) % w.length) invalidSlot).Queue := by
            simp [traceMass]
          rw [hsingle]
          have hmass2 := slotsMass_set_nil w ((prevIdx + 1) % w.length)
              ⟨(w.getD ((prevIdx + 1) % w.length) invalidSlot).Valid, cb nbl,
                NdisInitializeNblQueue⟩ rfl he
          have hkey : Multiset.ofList (w.getD ((prevIdx + 1) % w.length) invalidSlot).Queue +
              slotsMass (w.set ((prevIdx + 1) % w.length)
                ⟨(w.getD ((prevIdx + 1) % w.length) invalidSlot).Valid, cb nbl,
                  NdisInitializeNblQueue⟩) =
              slotsMass v + Multiset.ofList run := by
            rw [add_comm, hmass2, hmassw]
          calc traceMass acc +
                Multiset.ofList (w.getD ((prevIdx + 1) % w.length) invalidSlot).Queue +
                slotsMass (w.set ((prevIdx + 1) % w.length)
                  ⟨(w.getD ((prevIdx + 1) % w.length) invalidSlot).Valid, cb nbl,
                    NdisInitializeNblQueue⟩) +
                Multiset.ofList [nbl] + Multiset.ofList rest
              = traceMass acc +
                (Multiset.ofList (w.getD ((prevIdx + 1) % w.length) invalidSlot).Queue +
                 slotsMass (w.set ((prevIdx + 1) % w.length)
                   ⟨(w.getD ((prevIdx + 1) % w.length) invalidSlot).Valid, cb nbl,
                     NdisInitializeNblQueue⟩)) +
                (Multiset.ofList [nbl] + Multiset.ofList rest) := by abel
            _ = traceMass acc + (slotsMass v + Multiset.ofList run) +
                (Multiset.ofList [nbl] + Multiset.ofList rest) := by rw [hkey]
            _ = traceMass acc + slotsMass v + Multiset.ofList run +
                Multiset.ofList (nbl :: rest) := by
                rw [ofList_cons nbl rest]
                abel

theorem initSlots_eq (k : Nat) (t : Nat) :
    (initSlots (k + 1) t : List (NblSlot α)) =
      [⟨true, t, NdisInitializeNblQueue⟩] ++ List.replicate k invalidSlot := by
  simp [initSlots, List.replicate_succ]

theorem lookahead_mass (K : Nat) (hK : 0 < K) (cb : α → Nat) (h : α)
    (rest : List α) :
    traceMass (NdisClassifyNblChainByValueLookahead K cb h rest) =
      Multiset.ofList (h :: rest) := by
  obtain ⟨k, rfl⟩ : ∃ k, K = k + 1 := ⟨K - 1, by omega⟩
  show traceMass ((lookaheadGo cb (initSlots (k + 1) (cb h)) 0 [h] [] rest).2.2 ++
      flushLoop (lookaheadGo cb (initSlots (k + 1) (cb h)) 0 [h] [] rest).1) = _
  rw [traceMass_append, initSlots_eq k (cb h)]
  rw [lookaheadGo_mass cb rest [⟨true, cb h, NdisInitializeNblQueue⟩] k 0 [h] []
    (by intro s hs; simp at hs; subst hs; rfl) (by simp)]
  rw [show slotsMass [(⟨true, cb h, NdisInitializeNblQueue⟩ : NblSlot α)] = 0 from by
    simp [slotsMass, NdisInitializeNblQueue]]
  rw [show traceMass ([] : List (Nat × List α)) = 0 from by simp [traceMass]]
  rw [ofList_cons h rest]
  abel

theorem getD_queue_sublist {slots : List (NblSlot α)} {P : List α}
    (hs : ∀ s ∈ slots, List.Sublist s.Queue P) (i : Nat) :
    List.Sublist (slots.getD i invalidSlot).Queue P := by
  by_cases hi : i < slots.length
  · exact hs _ (getD_mem_of_lt slots i invalidSlot hi)
  · rw [List.getD_eq_default _ _ (Nat.le_of_not_lt hi)]
    exact List.nil_sublist P

theorem appendToSlot_queue_sublist {slots : List (NblSlot α)} {P : List α}
    (hs : ∀ s ∈ slots, List.Sublist s.Queue P) (i : Nat) (seg : List α) :
    ∀ s ∈ appendToSlot slots i seg, List.Sublist s.Queue (P ++ seg) := by
  intro s hsmem
  rcases List.mem_or_eq_of_mem_set hsmem with hmem | rfl
  · exact (hs s hmem).trans (List.sublist_append_left P seg)
  · show List.Sublist ((slots.getD i invalidSlot).Queue ++ seg) (P ++ seg)
    exact (getD_queue_sublist hs i).append (List.Sublist.refl seg)

theorem flushLoop_mem :
    ∀ (slots : List (NblSlot α)) (b : Nat × List α), b ∈ flushLoop slots →
      ∃ s ∈ slots, b = (s.Target, s.Queue) := by
  intro slots
  induction slots with
  | nil => intro b hb; simp [flushLoop] at hb
  | cons s slots ih =>
    intro b hb
    by_cases hs : s.Valid = false
    · simp [flushLoop, hs] at hb
    · rw [show flushLoop (s :: slots) = (s.Target, s.Queue) :: flushLoop slots from by
        simp [flushLoop, hs]] at hb
      rcases List.mem_cons.mp hb with rfl | hb
      · exact ⟨s, by simp, rfl⟩
      · obtain ⟨s', hs', rfl⟩ := ih b hb
        exact ⟨s', by simp [hs'], rfl⟩

theorem initSlots_queue_nil (K t : Nat) :
    ∀ s ∈ (initSlots K t : List (NblSlot α)), s.Queue = [] := by
  intro s hs
  rcases List.mem_or_eq_of_mem_set hs with hmem | rfl
  · rw [List.eq_of_mem_replicate hmem]
    rfl
  · rfl

theorem lookaheadGo_sublist (cb : α → Nat) (rest : List α) :
    ∀ (slots : List (NblSlot α)) (prevIdx : Nat) (run : List α)
      (acc : List (Nat × List α)) (P : List α),
      (∀ s ∈ slots, List.Sublist s.Queue P) →
      (∀ b ∈ acc, List.Sublist b.2 P) →
      ∀ b ∈ ((lookaheadGo cb slots prevIdx run acc rest).2.2 ++
              flushLoop (lookaheadGo cb slots prevIdx run acc rest).1),
        List.Sublist b.2 (P ++ run ++ rest) := by
  induction rest with
  | nil =>
    intro slots prevIdx run acc P hs hacc b hb
    rw [show (lookaheadGo cb slots prevIdx run acc []).2.2 = acc from rfl,
      show (lookaheadGo cb slots prevIdx run acc []).1 =
        appendToSlot slots prevIdx run from rfl] at hb
    rcases List.mem_append.mp hb with hb | hb
    · refine (hacc b hb).trans ?_
      simp only [List.append_nil]
      exact List.sublist_append_left P run
    · obtain ⟨s, hsm, rfl⟩ := flushLoop_mem _ b hb
      have := appendToSlot_queue_sublist hs prevIdx run s hsm
      simpa using this
  | cons nbl rest ih =>
    intro slots prevIdx run acc P hs hacc b hb
    by_cases hcond : (slots.getD prevIdx invalidSlot).Target = cb nbl
    · rw [lookaheadGo_cons_eq cb slots prevIdx run acc nbl rest hcond] at hb
      have := ih slots prevIdx (run ++ [nbl]) acc P hs hacc b hb
      simpa [List.append_assoc] using this
    · have hs1 := appendToSlot_queue_sublist hs prevIdx run
      have hacc1 : ∀ b ∈ acc, List.Sublist b.2 (P ++ run) :=
        fun b hb => (hacc b hb).trans (List.sublist_append_left P run)
      cases hscan : scanSlots (cb nbl) (appendToSlot slots prevIdx run) with
      | some ib =>
        obtain ⟨i, bfl⟩ := ib
        cases bfl with
        | true =>
          rw [lookaheadGo_step_empty cb rest hcond hscan] at hb
          have hs2 : ∀ s ∈ (appendToSlot slots prevIdx run).set i
              (⟨true, cb nbl, NdisInitializeNblQueue⟩ : NblSlot α),
              List.Sublist s.Queue (P ++ run) := by
            intro s hsm
            rcases List.mem_or_eq_of_mem_set hsm with hmem | rfl
            · exact hs1 s hmem
            · exact List.nil_sublist _
          have := ih _ i [nbl] acc (P ++ run) hs2 hacc1 b hb
          simpa [List.append_assoc] using this
        | false =>
          rw [lookaheadGo_step_matched cb rest hcond hscan] at hb
          have := ih _ i [nbl] acc (P ++ run) hs1 hacc1 b hb
          simpa [List.append_assoc] using this
      | none =>
        rw [lookaheadGo_step_evict cb rest hcond hscan] at hb
        have hs2 : ∀ s ∈ (appendToSlot slots prevIdx run).set
            ((prevIdx + 1) % (appendToSlot slots prevIdx run).length)
            (⟨((appendToSlot slots prevIdx run).getD
                ((prevIdx + 1) % (appendToSlot slots prevIdx run).length)
                invalidSlot).Valid, cb nbl, NdisInitializeNblQueue⟩ : NblSlot α),
            List.Sublist s.Queue (P ++ run) := by
          intro s hsm
          rcases List.mem_or_eq_of_mem_set hsm with hmem | rfl
          · exact hs1 s hmem
          · exact List.nil_sublist _
        have hacc2 : ∀ b ∈ acc ++ [(((appendToSlot slots prevIdx run).getD
            ((prevIdx + 1) % (appendToSlot slots prevIdx run).length)
            invalidSlot).Target,
          ((appendToSlot slots prevIdx run).getD
            ((prevIdx + 1) % (appendToSlot slots prevIdx run).length)
            invalidSlot).Queue)], List.Sublist b.2 (P ++ run) := by
          intro b hb2
          rcases List.mem_append.mp hb2 with hb2 | hb2
          · exact hacc1 b hb2
          · rw [List.mem_singleton] at hb2
            subst hb2
            exact getD_queue_sublist hs1 _
        have := ih _ _ [nbl] _ (P ++ run) hs2 hacc2 b hb
        simpa [List.append_assoc] using this

/-- C2: no packet is duplicated or dropped by any classifier.  For every
non-empty input chain: the two-way classifier's two queues (started empty)
together hold a permutation of the input; the N-way index classifier's
queues (for in-range selectors) gain exactly the input; the eager value
classifier's flushed batches concatenate to exactly the input; the lookahead
classifier's flushed batches are a permutation of the input; and the partial
classifier's detached run plus remainder reassemble the input. -/
theorem C2_no_packet_duplicated_or_dropped (cb : α → Nat) (h : α) (rest : List α) :
    ((NdisClassifyNblChain2 cb h rest [] []).1 ++
      (NdisClassifyNblChain2 cb h rest [] []).2).Perm (h :: rest) ∧
    (∀ (qs : List (List α)), (∀ x ∈ h :: rest, cb x < qs.length) →
      (NdisClassifyNblChainByIndex cb h rest qs).flatten.Perm
        (qs.flatten ++ (h :: rest))) ∧
    ((NdisClassifyNblChainByValue cb h rest).map Prod.snd).flatten = h :: rest ∧
    (∀ (K : Nat), 0 < K →
      (((NdisClassifyNblChainByValueLookahead K cb h rest).map Prod.snd).flatten).Perm
        (h :: rest)) ∧
    (NdisPartialClassifyNblChainByValue cb h rest).1 ++
      (NdisPartialClassifyNblChainByValue cb h rest).2.2 = h :: rest := by
  refine ⟨?_, ?_, ?_, ?_, ?_⟩
  · have hfil := classify2_filter cb h rest [] []
    rw [hfil.1, hfil.2]
    simp only [List.nil_append]
    exact List.filter_append_perm _ _
  · intro qs hin
    rw [← Multiset.coe_eq_coe]
    have hmass := classifyByIndexGo_mass cb rest (cb h) [h] qs
      (hin h (by simp)) (fun x hx => hin x (by simp [hx]))
    rw [show Multiset.ofList ((NdisClassifyNblChainByIndex cb h rest qs).flatten) =
        ((NdisClassifyNblChainByIndex cb h rest qs).map fun q => Multiset.ofList q).sum from
      flatten_coe_sum _]
    rw [show NdisClassifyNblChainByIndex cb h rest qs =
        classifyByIndexGo cb (cb h) [h] qs rest from rfl]
    rw [hmass]
    rw [show Multiset.ofList (qs.flatten ++ (h :: rest)) =
        Multiset.ofList qs.flatten + Multiset.ofList (h :: rest) from ofList_append _ _]
    rw [flatten_coe_sum qs]
    congr 1
  · exact byValueTrace_join_bounded cb (h :: rest).length (h :: rest) le_rfl
  · intro K hK
    rw [← Multiset.coe_eq_coe, ← traceMass_eq_flatten]
    exact lookahead_mass K hK cb h rest
  · rw [partialClassify_eq]
    simp [List.takeWhile_cons]

theorem C2_witness :
    (∀ x ∈ [1, 2, 3], x % 2 < 2) ∧ 0 < 2 ∧
    (NdisClassifyNblChainByIndex (fun x => x % 2) 1 [2, 3] [[], []]).flatten.Perm
      (([[], []] : List (List Nat)).flatten ++ [1, 2, 3]) ∧
    (((NdisClassifyNblChainByValueLookahead 2 (fun x => x % 2) 1 [2, 3]).map
        Prod.snd).flatten).Perm [1, 2, 3] := by
  refine ⟨by decide, by decide, ?_, ?_⟩
  · exact (C2_no_packet_duplicated_or_dropped (fun x => x % 2) 1 [2, 3]).2.1
      [[], []] (by decide)
  · exact (C2_no_packet_duplicated_or_dropped (fun x => x % 2) 1 [2, 3]).2.2.2.1
      2 (by decide)

/-- C8: stable partition.  For every non-empty input chain and every
classifier, packets landing in the same output queue or flushed batch keep
their input order: each output of the two-way, N-way (empty initial queues,
in-range selector), eager, lookahead and partial classifiers is a
subsequence of the input chain. -/
theorem C8_stable_partition (cb : α → Nat) (h : α) (rest : List α) :
    List.Sublist (NdisClassifyNblChain2 cb h rest [] []).1 (h :: rest) ∧
    List.Sublist (NdisClassifyNblChain2 cb h rest [] []).2 (h :: rest) ∧
    (∀ (qs : List (List α)) (j : Nat), (∀ x ∈ h :: rest, cb x < qs.length) →
      (∀ q ∈ qs, q = []) →
      List.Sublist ((NdisClassifyNblChainByIndex cb h rest qs).getD j [])
        (h :: rest)) ∧
    (∀ b ∈ NdisClassifyNblChainByValue cb h rest,
      List.Sublist b.2 (h :: rest)) ∧
    (∀ (K : Nat), ∀ b ∈ NdisClassifyNblChainByValueLookahead K cb h rest,
      List.Sublist b.2 (h :: rest)) ∧
    List.Sublist (NdisPartialClassifyNblChainByValue cb h rest).1 (h :: rest) := by
  refine ⟨?_, ?_, ?_, ?_, ?_, ?_⟩
  · rw [(classify2_filter cb h rest [] []).1]
    simp only [List.nil_append]
    exact List.filter_sublist _
  · rw [(classify2_filter cb h rest [] []).2]
    simp only [List.nil_append]
    exact List.filter_sublist _
  · intro qs j hin hempty
    have hchar := classifyByIndexGo_filter cb rest (cb h) [h] qs (by simp)
      (hin h (by simp)) (fun x hx => hin x (by simp [hx])) j
    rw [show NdisClassifyNblChainByIndex cb h rest qs =
        classifyByIndexGo cb (cb h) [h] qs rest from rfl, hchar]
    have hD : qs.getD j [] = [] := by
      by_cases hj : j < qs.length
      · exact hempty _ (getD_mem_of_lt qs j [] hj)
      · exact List.getD_eq_default _ _ (Nat.le_of_not_lt hj)
    rw [hD]
    simp only [List.nil_append, List.singleton_append]
    exact List.filter_sublist _
  · exact fun b hb =>
      byValueTrace_sublist_bounded cb (h :: rest).length (h :: rest) le_rfl b hb
  · intro K b hb
    have hsl := lookaheadGo_sublist cb rest (initSlots K (cb h)) 0 [h] [] []
      (fun s hs => by rw [initSlots_queue_nil K (cb h) s hs])
      (fun b hb => by simp at hb) b hb
    simpa using hsl
  · rw [partialClassify_eq]
    exact List.takeWhile_sublist _

theorem C8_witness :
    (∀ x ∈ [1, 2, 3], x % 2 < 2) ∧ (∀ q ∈ ([[], []] : List (List Nat)), q = []) ∧
    List.Sublist ((NdisClassifyNblChainByIndex (fun x => x % 2) 1 [2, 3]
      [[], []]).getD 0 []) [1, 2, 3] ∧
    ((1 : Nat), [1, 3]) ∈ NdisClassifyNblChainByValueLookahead 2 (fun x => x % 2) 1 [2, 3] ∧
    List.Sublist [1, 3] [1, 2, 3] := by
  refine ⟨by decide, by decide, ?_, by decide, ?_⟩
  · exact (C8_stable_partition (fun x => x % 2) 1 [2, 3]).2.2.1 [[], []] 0
      (by decide) (by decide)
  · exact (C8_stable_partition (fun x => x % 2) 1 [2, 3]).2.2.2.2.1 2
      (1, [1, 3]) (by decide)

/-- C4: on the six-packet chain with key sequence A,B,A,B,A,B (here keys
1,0,1,0,1,0 on packets 1..6), the lookahead classifier with any depth K ≥ 2
invokes the flush callback exactly twice: first with all three A-packets in
input order, then with all three B-packets in input order. -/
theorem C4_lookahead_abab (K : Nat) (hK : 2 ≤ K) :
    NdisClassifyNblChainByValueLookahead K (fun x => x % 2) 1 [2, 3, 4, 5, 6] =
      [(1, [1, 3, 5]), (0, [2, 4, 6])] := by
  obtain ⟨m, rfl⟩ : ∃ m, K = m + 1 + 1 := ⟨K - 2, by omega⟩
  have hinit : (initSlots (m + 1 + 1) ((fun x : Nat => x % 2) 1) : List (NblSlot Nat)) =
      ⟨true, 1, []⟩ :: invalidSlot :: List.replicate m invalidSlot := by
    simp [initSlots, List.replicate_succ, NdisInitializeNblQueue]
  simp only [NdisClassifyNblChainByValueLookahead]
  rw [hinit]
  have hs2 : scanSlots 0 (appendToSlot
      ((⟨true, 1, []⟩ : NblSlot Nat) :: invalidSlot :: List.replicate m invalidSlot)
      0 [1]) = some (1, true) := by
    simp [appendToSlot, scanSlots, invalidSlot, NdisAppendNblChainToNblQueueFast,
      NdisInitializeNblQueue]
  have e2 : lookaheadGo (fun x : Nat => x % 2)
      (⟨true, 1, []⟩ :: invalidSlot :: List.replicate m invalidSlot) 0 [1] []
      [2, 3, 4, 5, 6] =
      lookaheadGo (fun x : Nat => x % 2)
        (⟨true, 1, [1]⟩ :: ⟨true, 0, []⟩ :: List.replicate m invalidSlot) 1 [2] []
        [3, 4, 5, 6] := by
    rw [lookaheadGo_step_empty (fun x : Nat => x % 2) [3, 4, 5, 6] (by simp) hs2]
    simp [appendToSlot, NdisAppendNblChainToNblQueueFast, NdisInitializeNblQueue]
  have hs3 : scanSlots 1 (appendToSlot
      ((⟨true, 1, [1]⟩ : NblSlot Nat) :: ⟨true, 0, []⟩ :: List.replicate m invalidSlot)
      1 [2]) = some (0, false) := by
    simp [appendToSlot, scanSlots, NdisAppendNblChainToNblQueueFast]
  have e3 : lookaheadGo (fun x : Nat => x % 2)
      (⟨true, 1, [1]⟩ :: ⟨true, 0, []⟩ :: List.replicate m invalidSlot) 1 [2] []
      [3, 4, 5, 6] =
      lookaheadGo (fun x : Nat => x % 2)
        (⟨true, 1, [1]⟩ :: ⟨true, 0, [2]⟩ :: List.replicate m invalidSlot) 0 [3] []
        [4, 5, 6] := by
    rw [lookaheadGo_step_matched (fun x : Nat => x % 2) [4, 5, 6] (by simp) hs3]
    simp [appendToSlot, NdisAppendNblChainToNblQueueFast]
  have hs4 : scanSlots 0 (appendToSlot
      ((⟨true, 1, [1]⟩ : NblSlot Nat) :: ⟨true, 0, [2]⟩ :: List.replicate m invalidSlot)
      0 [3]) = some (1, false) := by
    simp [appendToSlot, scanSlots, NdisAppendNblChainToNblQueueFast]
  have e4 : lookaheadGo (fun x : Nat => x % 2)
      (⟨true, 1, [1]⟩ :: ⟨true, 0, [2]⟩ :: List.replicate m invalidSlot) 0 [3] []
      [4, 5, 6] =
      lookaheadGo (fun x : Nat => x % 2)
        (⟨true, 1, [1, 3]⟩ :: ⟨true, 0, [2]⟩ :: List.replicate m invalidSlot) 1 [4] []
        [5, 6] := by
    rw [lookaheadGo_step_matched (fun x : Nat => x % 2) [5, 6] (by simp) hs4]
    simp [appendToSlot, NdisAppendNblChainToNblQueueFast]
  have hs5 : scanSlots 1 (appendToSlot
      ((⟨true, 1, [1, 3]⟩ : NblSlot Nat) :: ⟨true, 0, [2]⟩ :: List.replicate m invalidSlot)
      1 [4]) = some (0, false) := by
    simp [appendToSlot, scanSlots, NdisAppendNblChainToNblQueueFast]
  have e5 : lookaheadGo (fun x : Nat => x % 2)
      (⟨true, 1, [1, 3]⟩ :: ⟨true, 0, [2]⟩ :: List.replicate m invalidSlot) 1 [4] []
      [5, 6] =
      lookaheadGo (fun x : Nat => x % 2)
        (⟨true, 1, [1, 3]⟩ :: ⟨true, 0, [2, 4]⟩ :: List.replicate m invalidSlot) 0 [5] []
        [6] := by
    rw [lookaheadGo_step_matched (fun x : Nat => x % 2) [6] (by simp) hs5]
    simp [appendToSlot, NdisAppendNblChainToNblQueueFast]
  have hs6 : scanSlots 0 (appendToSlot
      ((⟨true, 1, [1, 3]⟩ : NblSlot Nat) :: ⟨true, 0, [2, 4]⟩ :: List.replicate m invalidSlot)
      0 [5]) = some (1, false) := by
    simp [appendToSlot, scanSlots, NdisAppendNblChainToNblQueueFast]
  have e6 : lookaheadGo (fun x : Nat => x % 2)
      (⟨true, 1, [1, 3]⟩ :: ⟨true, 0, [2, 4]⟩ :: List.replicate m invalidSlot) 0 [5] []
      [6] =
      lookaheadGo (fun x : Nat => x % 2)
        (⟨true, 1, [1, 3, 5]⟩ :: ⟨true, 0, [2, 4]⟩ :: List.replicate m invalidSlot) 1 [6] []
        [] := by
    rw [lookaheadGo_step_matched (fun x : Nat => x % 2) [] (by simp) hs6]
    simp [appendToSlot, NdisAppendNblChainToNblQueueFast]
  have e7 : lookaheadGo (fun x : Nat => x % 2)
      (⟨true, 1, [1, 3, 5]⟩ :: ⟨true, 0, [2, 4]⟩ :: List.replicate m invalidSlot) 1 [6] []
      [] =
      ((⟨true, 1, [1, 3, 5]⟩ :: ⟨true, 0, [2, 4, 6]⟩ ::
        List.replicate m invalidSlot : List (NblSlot Nat)), 1,
       ([] : List (Nat × List Nat))) := by
    show ((appendToSlot (⟨true, 1, [1, 3, 5]⟩ :: ⟨true, 0, [2, 4]⟩ ::
        List.replicate m invalidSlot) 1 [6], 1, ([] : List (Nat × List Nat))) = _)
    simp [appendToSlot, NdisAppendNblChainToNblQueueFast]
  rw [e2, e3, e4, e5, e6, e7]
  simp [flushLoop, flushLoop_replicate, invalidSlot]
  exact flushLoop_replicate m

theorem C4_witness :
    2 ≤ 2 ∧
    NdisClassifyNblChainByValueLookahead 2 (fun x => x % 2) 1 [2, 3, 4, 5, 6] =
      [(1, [1, 3, 5]), (0, [2, 4, 6])] :=
  ⟨by decide, C4_lookahead_abab 2 (by decide)⟩

/-- C5: round-robin eviction.  When a packet's key differs from the
most-recently-extended slot's key, every slot is valid, and none holds the
packet's key, the lookahead classifier evicts exactly the slot at
`(PreviousIndex + 1) % K`: that slot's accumulated run is flushed at that
moment and the slot is reused for the new key, the new run starting at the
current packet.  In particular, with K = 2 and key sequence A,B,C,A
(packets 0,1,2,10 under key x % 10), the packet with key C evicts and
flushes the slot following the current one (the A-slot), and the trailing
A-packet starts a new, separately flushed run. -/
theorem C5_round_robin_eviction (cb : α → Nat) (slots : List (NblSlot α))
    (prevIdx : Nat) (run : List α) (acc : List (Nat × List α)) (nbl : α)
    (rest : List α)
    (hT : (slots.getD prevIdx invalidSlot).Target ≠ cb nbl)
    (hfull : ∀ s ∈ appendToSlot slots prevIdx run,
      s.Valid = true ∧ s.Target ≠ cb nbl) :
    (lookaheadGo cb slots prevIdx run acc (nbl :: rest) =
      lookaheadGo cb
        ((appendToSlot slots prevIdx run).set
          ((prevIdx + 1) % (appendToSlot slots prevIdx run).length)
          ⟨((appendToSlot slots prevIdx run).getD
              ((prevIdx + 1) % (appendToSlot slots prevIdx run).length)
              invalidSlot).Valid,
            cb nbl, NdisInitializeNblQueue⟩)
        ((prevIdx + 1) % (appendToSlot slots prevIdx run).length)
        [nbl]
        (acc ++ [(((appendToSlot slots prevIdx run).getD
            ((prevIdx + 1) % (appendToSlot slots prevIdx run).length)
            invalidSlot).Target,
          ((appendToSlot slots prevIdx run).getD
            ((prevIdx + 1) % (appendToSlot slots prevIdx run).length)
            invalidSlot).Queue)])
        rest) ∧
    NdisClassifyNblChainByValueLookahead 2 (fun x => x % 10) 0 [1, 2, 10] =
      [(0, [0]), (1, [1]), (2, [2]), (0, [10])] := by
  refine ⟨?_, by decide⟩
  exact lookaheadGo_step_evict cb rest hT (scanSlots_eq_none hfull)

theorem C5_witness :
    (([(⟨true, 5, [20]⟩ : NblSlot Nat), ⟨true, 6, [30]⟩].getD 0 invalidSlot).Target ≠
      7 % 10) ∧
    (∀ s ∈ appendToSlot [(⟨true, 5, [20]⟩ : NblSlot Nat), ⟨true, 6, [30]⟩] 0 [40],
      s.Valid = true ∧ s.Target ≠ 7 % 10) ∧
    lookaheadGo (fun x : Nat => x % 10)
        [⟨true, 5, [20]⟩, ⟨true, 6, [30]⟩] 0 [40] [] [7] =
      lookaheadGo (fun x : Nat => x % 10)
        [⟨true, 5, [20, 40]⟩, ⟨true, 7, []⟩] 1 [7] [(6, [30])] [] := by
  refine ⟨by decide, by decide, ?_⟩
  have h := (C5_round_robin_eviction (fun x : Nat => x % 10)
    [⟨true, 5, [20]⟩, ⟨true, 6, [30]⟩] 0 [40] [] 7 [] (by decide) (by decide)).1
  exact h

/-- C6 (as claimed) is false: with the default depth K = 4 and key sequence
A,B,A (keys 1,0,1 on packets 1,2,3), the third packet's key differs from the
most-recently-extended slot's key and two slots are still empty, yet the
classifier resumes occupied slot 0 (the matching A slot) rather than
starting a new run in an empty slot: the first flushed batch is [1, 3].  At
the very slot state arising there, the source's scan picks the matching
occupied slot 0 while a scan giving empty slots priority, as the claim
words it, would pick the empty slot 2. -/
theorem C6_empty_slot_not_preferred_cex :
    NdisClassifyNblChainByValueLookahead 4 (fun x => x % 2) 1 [2, 3] =
      [(1, [1, 3]), (0, [2])] ∧
    scanSlots 1 ([⟨true, 1, [1]⟩, ⟨true, 0, [2]⟩, invalidSlot, invalidSlot] :
      List (NblSlot Nat)) = some (0, false) ∧
    scanSlotsSpecEmptyFirst 1
      ([⟨true, 1, [1]⟩, ⟨true, 0, [2]⟩, invalidSlot, invalidSlot] :
        List (NblSlot Nat)) = some (2, true) ∧
    (([⟨true, 1, [1]⟩, ⟨true, 0, [2]⟩, invalidSlot, invalidSlot] :
        List (NblSlot Nat)).getD 2 invalidSlot).Valid = false := by
  refine ⟨by decide, by decide, by decide, by decide⟩

/-- C6 amended: the scan visits slots in index order, testing emptiness
before key equality at each slot; since valid slots always form a prefix of
the slot array, the effective policy is the reverse of the claim: an
occupied slot holding the packet's key is resumed whenever one exists, an
empty slot starts a new run only when no occupied slot matches, and
eviction happens only when additionally no slot is empty.  (On a chain with
keys 1,0,1,0 and K = 4, both repeated keys resume their occupied slots even
though empty slots remain.) -/
theorem C6_amended_match_before_empty (key : Nat) (v : List (NblSlot α))
    (m : Nat) (hv : ∀ s ∈ v, s.Valid = true) :
    (scanSlots key (v ++ List.replicate m invalidSlot) =
      (match v.findIdx? (fun s => s.Target == key) with
       | some j => some (j, false)
       | none => if m = 0 then none else some (v.length, true))) ∧
    NdisClassifyNblChainByValueLookahead 4 (fun x => x % 2) 1 [2, 3, 4] =
      [(1, [1, 3]), (0, [2, 4])] := by
  exact ⟨scanSlots_append_replicate key v m hv, by decide⟩

theorem C6_witness :
    (∀ s ∈ ([⟨true, 1, [1]⟩, ⟨true, 0, [2]⟩] : List (NblSlot Nat)), s.Valid = true) ∧
    scanSlots 1 (([⟨true, 1, [1]⟩, ⟨true, 0, [2]⟩] : List (NblSlot Nat)) ++
      List.replicate 2 invalidSlot) =
      (match ([⟨true, 1, [1]⟩, ⟨true, 0, [2]⟩] : List (NblSlot Nat)).findIdx?
          (fun s => s.Target == 1) with
       | some j => some (j, false)
       | none => if 2 = 0 then none else some (2, true)) := by
  refine ⟨by decide, ?_⟩
  exact (C6_amended_match_before_empty 1
    [⟨true, 1, [1]⟩, ⟨true, 0, [2]⟩] 2 (by decide)).1
